import Mathlib

/-!
Verification of the retrieval-and-extraction RAG pipeline
(src/query_classifier.py, src/extractors.py, src/llm.py, src/ingest.py,
src/rag_pipeline.py) against its natural-language specification.

Strings are modelled as `List Char` (`Str`).  Python regular expressions are
embedded as dedicated deterministic matchers: every pattern used by the code
is a regular pattern whose greedy quantifiers need at most a bounded
backtrack over the 1-3 digit head of a comma-grouped number, and each matcher
below documents the pattern it implements.  All definitions are structurally
recursive so that concrete runs reduce inside the kernel.
-/

set_option maxHeartbeats 1000000
set_option maxRecDepth 100000

/-- Strings as character lists. -/
abbrev Str := List Char

/-- Coerce a Lean string literal to the character-list representation. -/
def strOf (s : String) : Str := s.data

/-- The apostrophe character, written via its code point. -/
def apos : Char := Char.ofNat 39

/-- ASCII lower-casing of one character, as Python `str.lower` acts on the
ASCII corpus text handled by this program. -/
def pyLowerChar (c : Char) : Char :=
  if 'A' ≤ c ∧ c ≤ 'Z' then Char.ofNat (c.toNat + 32) else c

/-- Python `str.lower()` over the character list. -/
def lowerS (s : Str) : Str := s.map pyLowerChar

/-- Python whitespace class `\s` (ASCII range, as in the corpus). -/
def isPySpace (c : Char) : Bool :=
  if c = ' ' ∨ c = '\t' ∨ c = '\n' ∨ c = '\r' ∨ c = '\x0b' ∨ c = '\x0c'
  then true else false

/-- Python `in` on strings: `containsSub hay nd` decides whether `nd` occurs
as a contiguous substring of `hay`. -/
def containsSub : Str → Str → Bool
  | [], nd => nd.isPrefixOf ([] : Str)
  | c :: t, nd => nd.isPrefixOf (c :: t) || containsSub t nd

/-- Python `str.find` for a substring: index of the first occurrence. -/
def idxOfSub : Str → Str → Option Nat
  | [], nd => if nd.isPrefixOf ([] : Str) then some 0 else none
  | c :: t, nd =>
    if nd.isPrefixOf (c :: t) then some 0
    else (idxOfSub t nd).map (· + 1)

/-- Python `str.strip()`: drop leading and trailing whitespace. -/
def stripPy (s : Str) : Str :=
  ((s.dropWhile isPySpace).reverse.dropWhile isPySpace).reverse

/-- Python `str.split('\n')`: split at every newline, keeping empty pieces. -/
def splitLines : Str → List Str
  | [] => [[]]
  | c :: t =>
    if c = '\n' then [] :: splitLines t
    else
      match splitLines t with
      | [] => [[c]]
      | l :: ls => (c :: l) :: ls

/-- Worker for `splitWs`; `cur` holds the current word reversed. -/
def splitWsAux : Str → Str → List Str
  | cur, [] => if cur = [] then [] else [cur.reverse]
  | cur, c :: t =>
    if isPySpace c then
      if cur = [] then splitWsAux [] t else cur.reverse :: splitWsAux [] t
    else splitWsAux (c :: cur) t

/-- Python `str.split()` with no argument: split on whitespace runs,
dropping empty pieces. -/
def splitWs (s : Str) : List Str := splitWsAux [] s

/-- Python `" ".join(words)`. -/
def joinWords : List Str → Str
  | [] => []
  | [w] => w
  | w :: ws => w ++ ' ' :: joinWords ws

/-- Python `"\n".join(lines)`. -/
def joinLines : List Str → Str
  | [] => []
  | [w] => w
  | w :: ws => w ++ '\n' :: joinLines ws

/-- Decimal digit test, `\d` over the ASCII corpus. -/
def isDig (c : Char) : Bool := if '0' ≤ c ∧ c ≤ '9' then true else false

/-- Value of a decimal digit character. -/
def digVal (c : Char) : Nat := c.toNat - '0'.toNat

/-- Decimal value of a digit string (most significant first). -/
def digitsVal (ds : Str) : Nat := ds.foldl (fun a c => a * 10 + digVal c) 0

/-- Decimal digit characters, used to render numbers. -/
def digitChar : Nat → Char
  | 0 => '0' | 1 => '1' | 2 => '2' | 3 => '3' | 4 => '4'
  | 5 => '5' | 6 => '6' | 7 => '7' | 8 => '8' | _ => '9'

/-- Fuel-driven decimal rendering worker (most significant digit first). -/
def natDigitsAux : Nat → Nat → Str
  | 0, _ => []
  | f + 1, n =>
    if n < 10 then [digitChar n]
    else natDigitsAux f (n / 10) ++ [digitChar (n % 10)]

/-- Decimal rendering of a natural number, as Python `str(n)`. -/
def natDigits (n : Nat) : Str := natDigitsAux (n + 1) n

/-- Fuel-driven splitting of a natural into base-1000 groups, most
significant group first. -/
def fmtGroupsAux : Nat → Nat → List Nat
  | 0, _ => []
  | f + 1, n =>
    if n < 1000 then [n]
    else fmtGroupsAux f (n / 1000) ++ [n % 1000]

/-- Base-1000 groups of a natural number, most significant first. -/
def fmtGroups (n : Nat) : List Nat := fmtGroupsAux (n + 1) n

/-- Zero-padded three-digit rendering of a group below 1000. -/
def pad3 (m : Nat) : Str :=
  List.replicate (3 - (natDigits m).length) '0' ++ natDigits m

/-- Python `f"{n:,}"`: thousands separators every three digits. -/
def fmtComma (n : Nat) : Str :=
  match fmtGroups n with
  | [] => []
  | g :: gs => natDigits g ++ gs.flatMap (fun m => ',' :: pad3 m)

/-- Value of a matched comma-grouped number: Python
`int(m.group(1).replace(",", ""))`. -/
def numVal (m : Str) : Nat := digitsVal (m.filter (fun c => isDig c))

/-- Match exactly `n` digit characters. -/
def takeDigitsN : Nat → Str → Option (Str × Str)
  | 0, s => some ([], s)
  | _ + 1, [] => none
  | n + 1, c :: t =>
    if isDig c then (takeDigitsN n t).map (fun p => (c :: p.1, p.2)) else none

/-- Match one `,\d{3}` group. -/
def oneCommaGroup : Str → Option (Str × Str)
  | [] => none
  | c :: t =>
    if c = ',' then (takeDigitsN 3 t).map (fun p => (',' :: p.1, p.2))
    else none

/-- Greedy `(?:,\d{3})*`, fuel-driven (fuel bounds the remaining length). -/
def starGroupsAux : Nat → Str → Str × Str
  | 0, s => ([], s)
  | f + 1, s =>
    match oneCommaGroup s with
    | some (g, r) =>
      let p := starGroupsAux f r
      (g ++ p.1, p.2)
    | none => ([], s)

/-- Pattern `\d{1,3}(?:,\d{3})*` at the current position.  The 1-3 digit head
is greedy with backtracking, as in the Python regex engine; nothing follows
the group in any pattern that uses it, so no further backtracking arises. -/
def matchNumStar (s : Str) : Option (Str × Str) :=
  match takeDigitsN 3 s with
  | some (h, r) =>
    let p := starGroupsAux r.length r
    some (h ++ p.1, p.2)
  | none =>
    match takeDigitsN 2 s with
    | some (h, r) =>
      let p := starGroupsAux r.length r
      some (h ++ p.1, p.2)
    | none =>
      match takeDigitsN 1 s with
      | some (h, r) =>
        let p := starGroupsAux r.length r
        some (h ++ p.1, p.2)
      | none => none

/-- Pattern `\d{1,3}(?:,\d{3})+` at the current position (at least one
comma group). -/
def matchNumPlus (s : Str) : Option (Str × Str) :=
  let tryHead : Nat → Option (Str × Str) := fun l =>
    match takeDigitsN l s with
    | some (h, r) =>
      match oneCommaGroup r with
      | some (g1, r1) =>
        let p := starGroupsAux r1.length r1
        some (h ++ g1 ++ p.1, p.2)
      | none => none
    | none => none
  match tryHead 3 with
  | some v => some v
  | none =>
    match tryHead 2 with
    | some v => some v
    | none => tryHead 1

/-- Pattern `\d{1,3}(?:,\d{3}){3}` at the current position (exactly three
comma groups: the billions-format shares figures). -/
def matchNumB3 (s : Str) : Option (Str × Str) :=
  let tryHead : Nat → Option (Str × Str) := fun l =>
    match takeDigitsN l s with
    | some (h, r) =>
      match oneCommaGroup r with
      | some (g1, r1) =>
        match oneCommaGroup r1 with
        | some (g2, r2) =>
          match oneCommaGroup r2 with
          | some (g3, r3) => some (h ++ g1 ++ g2 ++ g3, r3)
          | none => none
        | none => none
      | none => none
    | none => none
  match tryHead 3 with
  | some v => some v
  | none =>
    match tryHead 2 with
    | some v => some v
    | none => tryHead 1

/-- Python `re.search`: try the position matcher at every suffix, leftmost
match wins. -/
def searchAux {α : Type} (m : Str → Option α) : Str → Option α
  | [] => m []
  | c :: t =>
    match m (c :: t) with
    | some r => some r
    | none => searchAux m t

/-- Python `re.findall`: scan left to right, non-overlapping, resuming after
each match.  Fuel bounds the scan (every step consumes at least one
character). -/
def findallAux (m : Str → Option (Str × Str)) : Nat → Str → List Str
  | 0, _ => []
  | _ + 1, [] => []
  | f + 1, c :: t =>
    match m (c :: t) with
    | some (g, rest) => g :: findallAux m f rest
    | none => findallAux m f t

/-- `re.findall` of the billions pattern `(\d{1,3}(?:,\d{3}){3})`. -/
def findallB3 (s : Str) : List Str := findallAux matchNumB3 s.length s

/-- Case-insensitive literal (the literal is given lower-cased). -/
def ciLit : Str → Str → Option Str
  | [], s => some s
  | _ :: _, [] => none
  | c :: lt, x :: xs => if pyLowerChar x = c then ciLit lt xs else none

/-- Pattern `\s+`: at least one whitespace, greedy. -/
def ws1 : Str → Option Str
  | [] => none
  | c :: t => if isPySpace c then some (t.dropWhile isPySpace) else none

/-- Pattern `\s*`: greedy whitespace skip. -/
def ws0 (s : Str) : Str := s.dropWhile isPySpace

/-- Pattern `[,\s]*`: greedy comma-or-whitespace skip. -/
def commaWs0 (s : Str) : Str := s.dropWhile (fun c => c == ',' || isPySpace c)

/-- Pattern `\$?`: optional literal dollar sign. -/
def optDollar : Str → Str
  | '$' :: t => t
  | s => s

/-- Optional case-insensitive trailing `s?`. -/
def optS : Str → Str
  | c :: t => if pyLowerChar c = 's' then t else c :: t
  | [] => []

/-- Month names of the date patterns, lower-cased, in alternation order. -/
def monthsLower : List Str :=
  [strOf "january", strOf "february", strOf "march", strOf "april",
   strOf "may", strOf "june", strOf "july", strOf "august",
   strOf "september", strOf "october", strOf "november", strOf "december"]

/-- Try each month alternative at the current position; returns the matched
original-case slice and the rest. -/
def tryMonths : List Str → Str → Option (Str × Str)
  | [], _ => none
  | m :: ms, s =>
    match ciLit m s with
    | some r => some (s.take m.length, r)
    | none => tryMonths ms s

/-- Expect one literal case-sensitive character. -/
def expectChar (c : Char) : Str → Option Str
  | [] => none
  | x :: t => if x = c then some t else none

/-- Query types of `QueryClassifier.classify`. -/
inductive QType
  | factual | numerical | calculation | reasoning | out_of_scope
deriving DecidableEq, Repr

/-- Company tag detected in the question (`result["entities"]["company"]`). -/
inductive CompanyTag
  | apple | tesla
deriving DecidableEq, Repr

/-- `expected_output` values the classifier assigns. -/
inductive ExpOut
  | text | number | percentage
deriving DecidableEq, Repr

/-- Result record of `QueryClassifier.classify` (src/query_classifier.py). -/
structure QueryClassification where
  qtype : QType
  keywords : List Str
  company : Option CompanyTag
  expected : ExpOut
deriving DecidableEq, Repr

/-- Out-of-scope trigger terms (src/query_classifier.py lines 23-26). -/
def outOfScopeTerms : List Str :=
  [strOf "color", strOf "painted", strOf "weather", strOf "height",
   strOf "population", strOf "forecast", strOf "future", strOf "prediction"]

/-- Future-question trigger terms (src/query_classifier.py line 43). -/
def futureTerms : List Str :=
  [strOf "forecast", strOf "predict", strOf "future", strOf "will be"]

/-- `QueryClassifier.classify` (src/query_classifier.py lines 9-113): the
ordered keyword-rule cascade.  Company detection happens after the first
out-of-scope check and before the later ones, exactly as in the source. -/
def QueryClassifier.classify (question : Str) : QueryClassification :=
  let ql := lowerS question
  if outOfScopeTerms.any (fun t => containsSub ql t) then
    ⟨.out_of_scope, [], none, .text⟩
  else
    let company :=
      if containsSub ql (strOf "apple") then some CompanyTag.apple
      else if containsSub ql (strOf "tesla") then some CompanyTag.tesla
      else none
    if futureTerms.any (fun t => containsSub ql t) then
      ⟨.out_of_scope, [], company, .text⟩
    else if (containsSub ql (strOf "2025") || containsSub ql (strOf "2026")) &&
            (containsSub ql (strOf "stock price") || containsSub ql (strOf "cfo") ||
             containsSub ql (strOf "color")) then
      ⟨.out_of_scope, [], company, .text⟩
    else if containsSub ql (strOf "shares") && containsSub ql (strOf "outstanding") then
      ⟨.numerical, [strOf "shares", strOf "outstanding", strOf "common stock"],
       company, .number⟩
    else if containsSub ql (strOf "term debt") then
      ⟨.numerical, [strOf "term debt", strOf "current", strOf "non-current"],
       company, .number⟩
    else if containsSub ql (strOf "revenue") || containsSub ql (strOf "net sales") then
      ⟨.numerical, [strOf "total net sales", strOf "revenue", strOf "sales"],
       company, .number⟩
    else if containsSub ql (strOf "percentage") || containsSub ql (strOf "% of") then
      ⟨.calculation, [strOf "automotive sales", strOf "total revenue"],
       company, .percentage⟩
    else if containsSub ql (strOf "vehicle") || containsSub ql (strOf "produce") ||
            containsSub ql (strOf "deliver") then
      ⟨.factual, [strOf "model s", strOf "model 3", strOf "model x",
                  strOf "model y", strOf "cybertruck"], company, .text⟩
    else if [strOf "why", strOf "reason", strOf "purpose"].any
              (fun t => containsSub ql t) then
      if containsSub ql (strOf "elon musk") then
        ⟨.reasoning, [strOf "elon musk", strOf "dependent", strOf "leadership",
                      strOf "strategy", strOf "innovation", strOf "disrupt"],
         company, .text⟩
      else ⟨.reasoning, [], company, .text⟩
    else ⟨.factual, [], company, .text⟩

/-- Pattern `Total\s+net\s+sales\s+\$?\s*(\d{1,3}(?:,\d{3})+)` (IGNORECASE)
at one position; yields the parsed group value. -/
def tryTotalNetSalesAt (s : Str) : Option Nat :=
  (ciLit (strOf "total") s).bind fun r1 =>
  (ws1 r1).bind fun r2 =>
  (ciLit (strOf "net") r2).bind fun r3 =>
  (ws1 r3).bind fun r4 =>
  (ciLit (strOf "sales") r4).bind fun r5 =>
  (ws1 r5).bind fun r6 =>
  (matchNumPlus (ws0 (optDollar r6))).map fun p => numVal p.1

/-- Pattern `Total\s+revenues?\s+\$\s*(\d{1,3}(?:,\d{3})+)` (IGNORECASE) at
one position. -/
def tryTotalRevenuesAt (s : Str) : Option Nat :=
  (ciLit (strOf "total") s).bind fun r1 =>
  (ws1 r1).bind fun r2 =>
  (ciLit (strOf "revenue") r2).bind fun r3 =>
  (ws1 (optS r3)).bind fun r4 =>
  (expectChar '$' r4).bind fun r5 =>
  (matchNumPlus (ws0 r5)).map fun p => numVal p.1

/-- Pattern `Automotive\s+sales\s+\$\s*(\d{1,3}(?:,\d{3})+)` (IGNORECASE) at
one position. -/
def tryAutomotiveAt (s : Str) : Option Nat :=
  (ciLit (strOf "automotive") s).bind fun r1 =>
  (ws1 r1).bind fun r2 =>
  (ciLit (strOf "sales") r2).bind fun r3 =>
  (ws1 r3).bind fun r4 =>
  (expectChar '$' r4).bind fun r5 =>
  (matchNumPlus (ws0 r5)).map fun p => numVal p.1

/-- `NumericalExtractor.extract_revenue` (src/extractors.py lines 41-57).
The Python signature also takes an `expected_range` argument that the body
never reads; it is omitted here. -/
def NumericalExtractor.extract_revenue (context : Str) : Option Str :=
  match searchAux tryTotalNetSalesAt context with
  | some v => some (('$' :: fmtComma v) ++ strOf " million")
  | none =>
    match searchAux tryTotalRevenuesAt context with
    | some v => some (('$' :: fmtComma v) ++ strOf " million")
    | none => none

/-- Date pattern of `extract_shares`:
`(January|...|December)\s+\d{1,2},\s+\d{4}` (IGNORECASE) at one position;
yields the original-case matched slice (`m.group(0)`). -/
def tryDateSharesAt (s : Str) : Option Str :=
  (tryMonths monthsLower s).bind fun p =>
  (ws1 p.2).bind fun r2 =>
  let tryDay : Nat → Option Str := fun l =>
    (takeDigitsN l r2).bind fun d =>
    (expectChar ',' d.2).bind fun r3 =>
    (ws1 r3).bind fun r4 =>
    (takeDigitsN 4 r4).map fun y => y.2
  match tryDay 2 with
  | some rf => some (s.take (s.length - rf.length))
  | none =>
    match tryDay 1 with
    | some rf => some (s.take (s.length - rf.length))
    | none => none

/-- Pattern `common\s+stock\s+outstanding` (IGNORECASE) at one position. -/
def tryCSOAt (s : Str) : Option Unit :=
  (ciLit (strOf "common") s).bind fun r1 =>
  (ws1 r1).bind fun r2 =>
  (ciLit (strOf "stock") r2).bind fun r3 =>
  (ws1 r3).bind fun r4 =>
  (ciLit (strOf "outstanding") r4).map fun _ => ()

/-- Strategy-3 pattern of `extract_shares`:
`(?:Common\s+stock\s+outstanding|shares\s+outstanding)[^0-9]*(\d{1,3}(?:,\d{3}){3})`
(IGNORECASE) at one position; yields group 1.  `[^0-9]*` cannot skip past a
digit, so the number must be the first digit run after the anchor. -/
def tryS3At (s : Str) : Option Str :=
  let anchor : Option Str :=
    match tryCSOAt s with
    | some _ =>
      ((ciLit (strOf "common") s).bind fun r1 =>
       (ws1 r1).bind fun r2 =>
       (ciLit (strOf "stock") r2).bind fun r3 =>
       (ws1 r3).bind fun r4 =>
       ciLit (strOf "outstanding") r4)
    | none =>
      (ciLit (strOf "shares") s).bind fun r1 =>
      (ws1 r1).bind fun r2 =>
      ciLit (strOf "outstanding") r2
  anchor.bind fun r =>
  (matchNumB3 (r.dropWhile (fun c => !isDig c))).map fun p => p.1

/-- The date-window scan of `extract_shares` (strategy 2, src/extractors.py
lines 98-105): Python iterates `for num_str in matches` and returns the
first under a condition that does not depend on `num_str`, so the loop
returns the first match exactly when the condition holds. -/
def sharesFromDateWindow (window : Str) : Option Str :=
  match findallB3 window with
  | [] => none
  | n :: _ =>
    if containsSub (lowerS window) (strOf "share") &&
       !containsSub (lowerS window) (strOf "shareholders of record")
    then some (n ++ strOf " shares")
    else none

/-- `NumericalExtractor.extract_shares` (src/extractors.py lines 59-114). -/
def NumericalExtractor.extract_shares (context query : Str) : Option Str :=
  match searchAux tryDateSharesAt query with
  | none => none
  | some targetDate =>
    let s1 : Option Str :=
      if containsSub (lowerS context) (strOf "ending balance") then
        match findallB3 context with
        | [] => none
        | n :: _ =>
          if (searchAux tryCSOAt context).isSome
          then some (n ++ strOf " shares")
          else none
      else none
    match s1 with
    | some r => some r
    | none =>
      let s2 : Option Str :=
        if containsSub context targetDate then
          match idxOfSub context targetDate with
          | none => none
          | some idx =>
            let lo := idx - 500
            let hi := min context.length (idx + 500)
            sharesFromDateWindow ((context.drop lo).take (hi - lo))
        else none
      match s2 with
      | some r => some r
      | none =>
        match searchAux tryS3At context with
        | some n => some (n ++ strOf " shares")
        | none => none

/-- Per-line dollar-amount search of `extract_debt`:
`re.search(r'\$\s*(\d{1,3}(?:,\d{3})*)', line)`. -/
def findDollarNum : Str → Option Nat
  | [] => none
  | c :: t =>
    if c = '$' then
      match matchNumStar (ws0 t) with
      | some (m, _) => some (numVal m)
      | none => findDollarNum t
    else findDollarNum t

/-- One iteration of the `for line in lines` loop of `extract_debt`
(src/extractors.py lines 129-144), threading the two accumulators. -/
def debtLineStep (acc : Option Nat × Option Nat) (line : Str) :
    Option Nat × Option Nat :=
  let ll := lowerS line
  let cur2 :=
    if containsSub ll (strOf "term debt") && containsSub ll (strOf "current") then
      match acc.1, findDollarNum line with
      | none, some v => some v
      | _, _ => acc.1
    else acc.1
  let ncur2 :=
    if containsSub ll (strOf "term debt") &&
       (containsSub ll (strOf "non-current") ||
        containsSub ll (strOf "net of current")) then
      match acc.2, findDollarNum line with
      | none, some v => some v
      | _, _ => acc.2
    else acc.2
  (cur2, ncur2)

/-- The line scan of `extract_debt`: first current and first non-current
dollar figure found over the context lines. -/
def debtScan (ctx : Str) : Option Nat × Option Nat :=
  (splitLines ctx).foldl debtLineStep (none, none)

/-- Fallback pattern
`Term\s+debt[,\s]*current\s+portion\s+\$\s*(\d{1,3}(?:,\d{3})*)`
(IGNORECASE) at one position. -/
def tryDebtCurrentAt (s : Str) : Option Nat :=
  (ciLit (strOf "term") s).bind fun r1 =>
  (ws1 r1).bind fun r2 =>
  (ciLit (strOf "debt") r2).bind fun r3 =>
  (ciLit (strOf "current") (commaWs0 r3)).bind fun r4 =>
  (ws1 r4).bind fun r5 =>
  (ciLit (strOf "portion") r5).bind fun r6 =>
  (ws1 r6).bind fun r7 =>
  (expectChar '$' r7).bind fun r8 =>
  (matchNumStar (ws0 r8)).map fun p => numVal p.1

/-- Fallback pattern
`Term\s+debt[,\s]*net\s+of\s+current\s+portion\s+\$\s*(\d{1,3}(?:,\d{3})*)`
(IGNORECASE) at one position. -/
def tryDebtNetAt (s : Str) : Option Nat :=
  (ciLit (strOf "term") s).bind fun r1 =>
  (ws1 r1).bind fun r2 =>
  (ciLit (strOf "debt") r2).bind fun r3 =>
  (ciLit (strOf "net") (commaWs0 r3)).bind fun r4 =>
  (ws1 r4).bind fun r5 =>
  (ciLit (strOf "of") r5).bind fun r6 =>
  (ws1 r6).bind fun r7 =>
  (ciLit (strOf "current") r7).bind fun r8 =>
  (ws1 r8).bind fun r9 =>
  (ciLit (strOf "portion") r9).bind fun r10 =>
  (ws1 r10).bind fun r11 =>
  (expectChar '$' r11).bind fun r12 =>
  (matchNumStar (ws0 r12)).map fun p => numVal p.1

/-- Final value of the `current_debt` variable of `extract_debt`: the line
scan, then the whole-context regex fallback if the scan found nothing. -/
def debtCurrent (ctx : Str) : Option Nat :=
  match (debtScan ctx).1 with
  | some v => some v
  | none => searchAux tryDebtCurrentAt ctx

/-- Final value of the `noncurrent_debt` variable of `extract_debt`. -/
def debtNoncurrent (ctx : Str) : Option Nat :=
  match (debtScan ctx).2 with
  | some v => some v
  | none => searchAux tryDebtNetAt ctx

/-- `NumericalExtractor.extract_debt` (src/extractors.py lines 117-164):
sums the two components when both are found, otherwise returns none. -/
def NumericalExtractor.extract_debt (ctx : Str) : Option Str :=
  match debtCurrent ctx, debtNoncurrent ctx with
  | some c, some n => some (('$' :: fmtComma (c + n)) ++ strOf " million")
  | _, _ => none

/-- Tenths-of-a-percent value of `(a / t) * 100` rounded to one decimal:
the rational rounding computed by the Python `:.1f` format (the concrete
figures of the claims are far from rounding ties, where the binary-double
detail could otherwise matter). -/
def pct1 (a t : Nat) : Nat := (2000 * a + t) / (2 * t)

/-- Rendering of the one-decimal percentage (`f"{percentage:.1f}"`). -/
def fmtPct (d : Nat) : Str := natDigits (d / 10) ++ '.' :: [digitChar (d % 10)]

/-- `CalculationExtractor.calculate_percentage` (src/extractors.py lines
173-203).  The guard embeds the Python truthiness test
`if auto_value and total_value and total_value > auto_value`. -/
def CalculationExtractor.calculate_percentage (context : Str) : Option Str :=
  match searchAux tryAutomotiveAt context, searchAux tryTotalRevenuesAt context with
  | some a, some t =>
    if a ≠ 0 ∧ t ≠ 0 ∧ a < t then
      some (strOf "Approximately " ++ fmtPct (pct1 a t) ++ strOf "% ($" ++
            fmtComma a ++ strOf "M out of $" ++ fmtComma t ++
            strOf "M total revenue)")
    else none
  | _, _ => none

/-- Python `", ".join(items)`. -/
def joinCommaSpace : List Str → Str
  | [] => []
  | [w] => w
  | w :: ws => w ++ ',' :: ' ' :: joinCommaSpace ws

/-- Vehicle keyword vocabulary of `FactualExtractor.extract`
(src/extractors.py line 13); membership there is list membership, not
substring containment. -/
def vehicleVocab : List Str :=
  [strOf "model s", strOf "model 3", strOf "model x", strOf "model y",
   strOf "cybertruck", strOf "vehicles"]

/-- `FactualExtractor.extract` (src/extractors.py lines 9-33). -/
def FactualExtractor.extract (context : Str) (keywords : List Str) : Option Str :=
  if keywords.any (fun kw => vehicleVocab.contains (lowerS kw)) then
    let cl := lowerS context
    let vehicles :=
      (if containsSub cl (strOf "model s") then [strOf "Model S"] else []) ++
      (if containsSub cl (strOf "model 3") then [strOf "Model 3"] else []) ++
      (if containsSub cl (strOf "model x") then [strOf "Model X"] else []) ++
      (if containsSub cl (strOf "model y") then [strOf "Model Y"] else []) ++
      (if containsSub cl (strOf "cybertruck") then [strOf "Cybertruck"] else [])
    if 3 ≤ vehicles.length then some (joinCommaSpace vehicles) else none
  else none

/-- Python `str(list_of_strings)`: bracketed, apostrophe-quoted, joined by
a comma and a space. -/
def pyStrList (ws : List Str) : Str :=
  '[' :: joinCommaSpace (ws.map (fun w => apos :: w ++ [apos])) ++ [']']

/-- Sentence-final punctuation class `[.!?]`. -/
def isSentPunct (c : Char) : Bool :=
  if c = '.' ∨ c = '!' ∨ c = '?' then true else false

/-- State machine for `re.split(r'(?<=[.!?])\s+', context)`: a whitespace
run directly after sentence punctuation is a delimiter; the punctuation
stays with the left piece.  First flag: currently skipping a delimiter run;
second flag: previous character was sentence punctuation; `cur` holds the
current piece reversed. -/
def splitSentAux : Bool → Bool → Str → Str → List Str
  | _, _, cur, [] => [cur.reverse]
  | false, prevP, cur, c :: t =>
    if prevP && isPySpace c then cur.reverse :: splitSentAux true false [] t
    else splitSentAux false (isSentPunct c) (c :: cur) t
  | true, _, cur, c :: t =>
    if isPySpace c then splitSentAux true false cur t
    else splitSentAux false (isSentPunct c) [c] t

/-- `re.split(r'(?<=[.!?])\s+', s)`. -/
def splitSentences (s : Str) : List Str := splitSentAux false false [] s

/-- Dependency terms of `ReasoningExtractor.extract`
(src/extractors.py lines 231-233). -/
def reasoningDependencyTerms : List Str :=
  [strOf "depend", strOf "critical", strOf "central", strOf "essential",
   strOf "important"]

/-- `ReasoningExtractor.extract` (src/extractors.py lines 211-262).
`re.sub(r'\s+', ' ', s).strip()` collapses whitespace runs to single spaces
and trims the ends, which is exactly `joinWords (splitWs s)`. -/
def ReasoningExtractor.extract (context : Str) (keywords : List Str) : Option Str :=
  if containsSub (lowerS (pyStrList keywords)) (strOf "elon musk") then
    let relevant := ((splitSentences context).filter (fun s =>
        let sl := lowerS s
        containsSub sl (strOf "musk") &&
        reasoningDependencyTerms.any (fun t => containsSub sl t))).map
      (fun s => joinWords (splitWs s))
    match relevant with
    | [] => none
    | m0 :: _ =>
      let m1 := if (strOf "...").isSuffixOf m0 then m0.take (m0.length - 3) else m0
      let m2 :=
        if !((strOf ".").isSuffixOf m1) && !((strOf "!").isSuffixOf m1) then
          match idxOfSub context (m1.take 50) with
          | some sidx =>
            match (context.drop sidx).findIdx? isSentPunct with
            | some j => stripPy ((context.drop sidx).take (j + 1))
            | none => m1
          | none => m1
        else m1
      some m2
  else none

/-- Pattern `,?\s+`: optional comma, then mandatory whitespace. -/
def commaOptWs1 : Str → Option Str
  | ',' :: t => ws1 t
  | s => ws1 s

/-- Date pattern of `DateExtractor`
`(?:Date:\s*)?(January|...)\s+(\d{1,2}),?\s+(\d{4})` (IGNORECASE) at one
position, yielding the three groups.  When the optional `Date:` prefix
matches but the remainder fails, retrying without the prefix also fails
(no month name continues the text after its first character), so consuming
the prefix when present is equivalent to the backtracking engine. -/
def tryDateExtractAt (s : Str) : Option (Str × Str × Str) :=
  let s1 := match ciLit (strOf "date:") s with
    | some r => ws0 r
    | none => s
  (tryMonths monthsLower s1).bind fun p =>
  (ws1 p.2).bind fun r2 =>
  let tryDay : Nat → Option (Str × Str × Str) := fun l =>
    (takeDigitsN l r2).bind fun d =>
    (commaOptWs1 d.2).bind fun r3 =>
    (takeDigitsN 4 r3).map fun y => (p.1, d.1, y.1)
  match tryDay 2 with
  | some v => some v
  | none => tryDay 1

/-- `DateExtractor.extract` (src/extractors.py lines 271-288): first date in
the context, rendered `f"{month} {day}, {year}"`. -/
def DateExtractor.extract (context : Str) : Option Str :=
  (searchAux tryDateExtractAt context).map fun t =>
    t.1 ++ ' ' :: t.2.1 ++ ',' :: ' ' :: t.2.2

/-- Python regex word character class `\w`. -/
def wordChar (c : Char) : Bool :=
  if ('a' ≤ c ∧ c ≤ 'z') ∨ ('A' ≤ c ∧ c ≤ 'Z') ∨ ('0' ≤ c ∧ c ≤ '9') ∨ c = '_'
  then true else false

/-- Word boundary on the left of a position. -/
def boundaryBefore : Option Char → Bool
  | none => true
  | some c => !wordChar c

/-- Word boundary at the start of the remaining text. -/
def boundaryAfter : Str → Bool
  | [] => true
  | c :: _ => !wordChar c

/-- Search for a case-sensitive token with `\b` boundaries on both sides. -/
def hasWordTokenAux (tok : Str) : Option Char → Str → Bool
  | _, [] => false
  | prev, c :: t =>
    (boundaryBefore prev && tok.isPrefixOf (c :: t) &&
     boundaryAfter ((c :: t).drop tok.length))
    || hasWordTokenAux tok (some c) t

/-- `re.search(r'\bNone\b', context)` (case-sensitive). -/
def hasWordNone (s : Str) : Bool := hasWordTokenAux (strOf "None") none s

/-- `YesNoExtractor.extract` (src/extractors.py lines 296-303). -/
def YesNoExtractor.extract (context : Str) (keywords : List Str) : Option Str :=
  if keywords.any (fun kw => containsSub (lowerS kw) (strOf "sec")) then
    if hasWordNone context then some (strOf "No") else none
  else none

/-- `re.search(r'\b\d{4}\b', question)`: an exactly-four-digit run. -/
def hasYear4Aux : Option Char → Str → Bool
  | _, [] => false
  | prev, c :: t =>
    (boundaryBefore prev &&
      (match takeDigitsN 4 (c :: t) with
       | some p => boundaryAfter p.2
       | none => false))
    || hasYear4Aux (some c) t

/-- Whether the question contains a four-digit year token. -/
def hasYear4 (s : Str) : Bool := hasYear4Aux none s

/-- Answer record `{answer, sources}`; a source is a (document, page) pair. -/
structure AnswerS where
  answer : Str
  sources : List (Str × Nat)
deriving DecidableEq, Repr

/-- The fixed refusal string of the out-of-scope and empty-retrieval paths. -/
def refusalAnswer : Str :=
  strOf "This question cannot be answered based on the provided documents."

/-- The fixed answer substituted when generation fails or degenerates. -/
def notSpecifiedAnswer : Str := strOf "Not specified in the document."

/-- The five vehicle names scanned by the vehicle fallback
(src/llm.py line 161). -/
def properVehicles : List Str :=
  [strOf "Model S", strOf "Model 3", strOf "Model X", strOf "Model Y",
   strOf "Cybertruck"]

/-- Prompt of `vehicle_llm_fallback` (src/llm.py lines 136-143). -/
def vehiclePromptOf (context : Str) : Str :=
  strOf "\nList ALL Tesla vehicle models currently produced and delivered.\n\nReturn ONLY the model names separated by commas.\n\nContext:\n"
  ++ context.take 2500 ++ strOf "\n"

/-- `SmartLLM.vehicle_llm_fallback` (src/llm.py lines 134-173).  `gen`
models the external decode-after-generate call (prompt to decoded text). -/
def SmartLLM.vehicle_llm_fallback (gen : Str → Str) (context : Str) : AnswerS :=
  let text := gen (vehiclePromptOf context)
  let lower := lowerS text
  let found := properVehicles.filter (fun m => containsSub lower (lowerS m))
  if found ≠ [] then ⟨joinCommaSpace found, []⟩
  else ⟨strOf "Model S, Model 3, Model X, Model Y, Cybertruck", []⟩

/-- Prompt of the reasoning fallback (src/llm.py lines 181-191). -/
def reasoningPromptOf (question context : Str) : Str :=
  strOf "\nExplain clearly based on SEC filings.\n\nContext:\n"
  ++ context.take 3000
  ++ strOf "\n\nQuestion:\n" ++ question ++ strOf "\n\nAnswer:\n"

/-- The `_reasoning_llm` fallback (src/llm.py lines 179-203).  The decoded
text (which, as in the source, still carries the prompt echo) is returned
as the answer; the Python dict carries no sources key and the pipeline
rebuilds sources itself, so the field is empty here. -/
def SmartLLM.reasoning_llm (gen : Str → Str) (question context : Str) : AnswerS :=
  ⟨gen (reasoningPromptOf question context), []⟩

/-- Prompt of the safe fallback (src/llm.py lines 211-222). -/
def instPromptOf (question context : Str) : Str :=
  strOf "[INST]\nExtract the answer ONLY from the SEC filing context.\nIf not found, say \"Not specified in the document.\"\n\nContext:\n"
  ++ context.take 3000
  ++ strOf "\n\nQuestion:\n" ++ question ++ strOf "\n\nAnswer:\n[/INST]"

/-- Text after the last occurrence of a separator (deepest match wins). -/
def afterLastSubAux (nd : Str) : Str → Option Str
  | [] => none
  | c :: t =>
    match afterLastSubAux nd t with
    | some r => some r
    | none => if nd.isPrefixOf (c :: t) then some ((c :: t).drop nd.length) else none

/-- Python `text.split(sep)[-1]` for the separator `[/INST]`, which has no
self-overlap, so the last left-to-right occurrence is the last occurrence. -/
def afterLastSub (s nd : Str) : Str := (afterLastSubAux nd s).getD s

/-- The `_llm_fallback` method (src/llm.py lines 209-240). -/
def SmartLLM.llm_fallback (gen : Str → Str) (question context : Str) : AnswerS :=
  let text := gen (instPromptOf question context)
  let ans := stripPy (afterLastSub text (strOf "[/INST]"))
  if ans.length < 3 then ⟨notSpecifiedAnswer, []⟩ else ⟨ans, []⟩

/-- `SmartLLM.answer` (src/llm.py lines 44-128): classify, refuse
out-of-scope immediately, dispatch to the type extractor, then the date and
yes-no fallback probes, then the generation fallback.  `gen` is the
external generation model. -/
def SmartLLM.answer (gen : Str → Str) (question context : Str) : AnswerS :=
  let qi := QueryClassifier.classify question
  if qi.qtype = QType.out_of_scope then ⟨refusalAnswer, []⟩
  else
    let ql := lowerS question
    let extracted : Option Str :=
      match qi.qtype with
      | .factual => FactualExtractor.extract context qi.keywords
      | .numerical =>
        if containsSub ql (strOf "shares") then
          NumericalExtractor.extract_shares context question
        else if containsSub ql (strOf "debt") then
          NumericalExtractor.extract_debt context
        else if containsSub ql (strOf "revenue") then
          NumericalExtractor.extract_revenue context
        else none
      | .calculation => CalculationExtractor.calculate_percentage context
      | .reasoning => ReasoningExtractor.extract context qi.keywords
      | .out_of_scope => none
    if qi.qtype = QType.factual ∧ extracted = none ∧
       containsSub ql (strOf "vehicles") then
      SmartLLM.vehicle_llm_fallback gen context
    else if qi.qtype = QType.reasoning ∧ extracted = none then
      SmartLLM.reasoning_llm gen question context
    else
      match extracted with
      | some e => ⟨e, []⟩
      | none =>
        match (if hasYear4 question then DateExtractor.extract context else none) with
        | some d => ⟨d, []⟩
        | none =>
          match (if containsSub ql (strOf "sec") then
                   YesNoExtractor.extract context qi.keywords
                 else none) with
          | some yn => ⟨yn, []⟩
          | none => SmartLLM.llm_fallback gen question context

/-- A retrieved chunk as the pipeline sees it:
`{text, metadata: {document, page, is_table}}`. -/
structure ChunkR where
  text : Str
  document : Str
  page : Nat
  is_table : Bool
deriving DecidableEq, Repr

/-- Worker of `build_context` (src/rag_pipeline.py lines 7-25): 1-based
index, running character total, remaining chunks; stops (Python `break`)
when a snippet would exceed the budget. -/
def buildContextAux (max_chars : Nat) : Nat → Nat → List ChunkR → List Str
  | _, _, [] => []
  | i, total, c :: rest =>
    let snippet := '[' :: natDigits i ++ ']' :: ' ' :: c.document ++
      ',' :: ' ' :: 'p' :: '.' :: ' ' :: natDigits c.page ++
      '\n' :: c.text ++ strOf "\n\n"
    if max_chars < total + snippet.length then []
    else snippet :: buildContextAux max_chars (i + 1) (total + snippet.length) rest

/-- `build_context` (src/rag_pipeline.py lines 7-25). -/
def build_context (chunks : List ChunkR) (max_chars : Nat) : Str :=
  (buildContextAux max_chars 1 0 chunks).flatten

/-- Dedup of STEP 2 (src/rag_pipeline.py lines 68-75): keep the first chunk
for every first-300-characters key. -/
def dedupChunks : List Str → List ChunkR → List ChunkR
  | _, [] => []
  | seen, c :: rest =>
    let key := c.text.take 300
    if seen.contains key then dedupChunks seen rest
    else c :: dedupChunks (key :: seen) rest

/-- Financial trigger words of STEP 3 (src/rag_pipeline.py line 83). -/
def financialQueryWords : List Str := [strOf "revenue", strOf "shares", strOf "debt"]

/-- Lower-cased vehicle names of STEP 4 (src/rag_pipeline.py lines 99-102). -/
def vehicleNamesLower : List Str :=
  [strOf "model s", strOf "model 3", strOf "model x", strOf "model y",
   strOf "cybertruck"]

/-- STEPs 2-4 of `answer_question`: dedup, tables-first ordering for
financial queries, vehicle boost.  The Python single-pass partitions are
written as two ordered filters, which build the same two lists. -/
def orderedChunks (chunks : List ChunkR) (query : Str) : List ChunkR :=
  let unique := dedupChunks [] chunks
  let ql := lowerS query
  let ordered :=
    if financialQueryWords.any (fun w => containsSub ql w) then
      unique.filter (fun c => c.is_table) ++ unique.filter (fun c => !c.is_table)
    else unique
  if containsSub ql (strOf "vehicles") then
    let isVehicle : ChunkR → Bool := fun c =>
      vehicleNamesLower.any (fun m => containsSub (lowerS c.text) m)
    let vehicle := ordered.filter isVehicle
    let others := ordered.filter (fun c => !isVehicle c)
    if vehicle ≠ [] then vehicle ++ others else ordered
  else ordered

/-- `ImprovedRAGPipeline.answer_question` (src/rag_pipeline.py lines
45-136).  The retriever and the generation-backed `SmartLLM.answer` are the
external collaborators: `chunks` is the retriever output for the query and
`llmAnswer` is the answering call, whose `Except.error` case models the
Python call raising an exception; the `try/except` of the source is the
match on that result. -/
def ImprovedRAGPipeline.answer_question (chunks : List ChunkR)
    (llmAnswer : Str → Str → Except Unit AnswerS) (query : Str) : AnswerS :=
  if chunks = [] then ⟨refusalAnswer, []⟩
  else
    let ordered := orderedChunks chunks query
    let context := build_context ordered 15000
    match llmAnswer query context with
    | .error _ => ⟨notSpecifiedAnswer, []⟩
    | .ok r =>
      ⟨stripPy r.answer, (ordered.take 5).map (fun c => (c.document, c.page))⟩

/-- Chunking constants (src/ingest.py lines 12-13). -/
def CHUNK_SIZE : Nat := 600

/-- Word overlap between consecutive windows (src/ingest.py line 13). -/
def CHUNK_OVERLAP : Nat := 150

/-- Pattern `\$\s*[\d,]+` at one position (`has_dollar_amounts`). -/
def tryDollarAmountAt : Str → Option Unit
  | '$' :: t =>
    match ws0 t with
    | c :: _ => if isDig c || c == ',' then some () else none
    | [] => none
  | _ => none

/-- `TableDetector.has_dollar_amounts` (src/ingest.py lines 21-23). -/
def TableDetector.has_dollar_amounts (line : Str) : Bool :=
  (searchAux tryDollarAmountAt line).isSome

/-- `re.findall` of `\d{1,3}(?:,\d{3})*`. -/
def findallNumStar (s : Str) : List Str := findallAux matchNumStar s.length s

/-- `TableDetector.has_multiple_numbers` (src/ingest.py lines 26-29). -/
def TableDetector.has_multiple_numbers (line : Str) : Bool :=
  2 ≤ (findallNumStar line).length

/-- `TableDetector.has_wide_spacing` (src/ingest.py lines 32-35):
`\s{2,}`. -/
def TableDetector.has_wide_spacing : Str → Bool
  | a :: b :: t => (isPySpace a && isPySpace b) || TableDetector.has_wide_spacing (b :: t)
  | _ => false

/-- Financial keywords of `TableDetector` (src/ingest.py lines 40-45). -/
def financialRowKeywords : List Str :=
  [strOf "assets", strOf "liabilities", strOf "equity", strOf "revenue",
   strOf "sales", strOf "income", strOf "cash", strOf "debt", strOf "total",
   strOf "net", strOf "balance", strOf "current", strOf "non-current",
   strOf "shares", strOf "common stock", strOf "term debt",
   strOf "accounts payable", strOf "inventory"]

/-- `TableDetector.is_financial_keyword` (src/ingest.py lines 38-47). -/
def TableDetector.is_financial_keyword (line : Str) : Bool :=
  financialRowKeywords.any (fun kw => containsSub (lowerS line) kw)

/-- `TableDetector.is_table_row` (src/ingest.py lines 50-75). -/
def TableDetector.is_table_row (line : Str) : Bool :=
  if (stripPy line).length < 5 then false
  else
    let has_dollars := TableDetector.has_dollar_amounts line
    let has_numbers := TableDetector.has_multiple_numbers line
    let has_spacing := TableDetector.has_wide_spacing line
    let has_keyword := TableDetector.is_financial_keyword line
    if has_dollars && has_spacing then true
    else if has_numbers && has_spacing then true
    else if has_keyword && (has_numbers || has_spacing || has_dollars) then true
    else false

/-- A detected table block (the dict of `extract_table_blocks`). -/
structure TableBlock where
  text : Str
  rows : List Str
  start_line : Nat
  end_line : Nat
deriving DecidableEq, Repr

/-- Build the block dict from the accumulated stripped rows. -/
def mkTB (cur : List Str) (s e : Nat) : TableBlock := ⟨joinLines cur, cur, s, e⟩

/-- Loop of `extract_table_blocks` (src/ingest.py lines 85-126) over the
enumerated lines, carrying `current_table` and `in_table`.  As in the
source, a blank line flushes the accumulator only when it already has three
rows; a smaller accumulator survives the blank line unreset. -/
def etbAux (total : Nat) : List (Nat × Str) → List Str → Bool → List TableBlock
  | [], cur, _ =>
    if 3 ≤ cur.length then [mkTB cur (total - cur.length) total] else []
  | (i, line) :: rest, cur, inT =>
    if stripPy line = [] then
      if inT && decide (3 ≤ cur.length) then
        mkTB cur (i - cur.length) i :: etbAux total rest [] false
      else etbAux total rest cur inT
    else if TableDetector.is_table_row line then
      etbAux total rest (cur ++ [stripPy line]) true
    else
      if inT && decide (3 ≤ cur.length) then
        mkTB cur (i - cur.length) i :: etbAux total rest [] false
      else etbAux total rest [] false

/-- `TableDetector.extract_table_blocks` (src/ingest.py lines 78-128). -/
def TableDetector.extract_table_blocks (text : Str) : List TableBlock :=
  let lines := splitLines text
  etbAux lines.length lines.enum [] false

/-- `detect_section` (src/ingest.py lines 130-160). -/
def detect_section (text : Str) : Str :=
  let t := lowerS text
  if containsSub t (strOf "consolidated balance sheet") then strOf "balance_sheet"
  else if containsSub t (strOf "balance sheet") &&
          (containsSub t (strOf "assets") || containsSub t (strOf "liabilities")) then
    strOf "balance_sheet"
  else if containsSub t (strOf "consolidated statements of operations") then
    strOf "income_statement"
  else if containsSub t (strOf "income statement") ||
          containsSub t (strOf "statement of operations") then
    strOf "income_statement"
  else if containsSub t (strOf "cash flow") then strOf "cash_flow"
  else if containsSub t (strOf "item 8") then strOf "item_8"
  else if containsSub t (strOf "item 7") then strOf "item_7"
  else if containsSub t (strOf "item 1a") then strOf "item_1a"
  else if containsSub t (strOf "item 5") then strOf "item_5"
  else strOf "general"

/-- A page of extracted PDF text. -/
structure PageT where
  page : Nat
  text : Str
deriving DecidableEq, Repr

/-- A chunk produced by `smart_chunk`. -/
structure ChunkT where
  text : Str
  page : Nat
  sectionName : Str
  is_table : Bool
deriving DecidableEq, Repr

/-- Whether line index `i` falls inside a detected table block
(`table_line_ranges` of src/ingest.py lines 185-189). -/
def inTableRanges (tables : List TableBlock) (i : Nat) : Bool :=
  tables.any (fun t => t.start_line ≤ i && i < t.end_line)

/-- The word-window loop of `smart_chunk` (src/ingest.py lines 214-230):
windows of `CHUNK_SIZE` words advancing by `CHUNK_SIZE - CHUNK_OVERLAP`,
the last window ending at the word-sequence end.  Fuel bounds the loop by
the word count (each step drops 450 words). -/
def windowsAux : Nat → List Str → List (List Str)
  | 0, _ => []
  | _ + 1, [] => []
  | f + 1, w :: ws =>
    if (w :: ws).length ≤ CHUNK_SIZE then [w :: ws]
    else (w :: ws).take CHUNK_SIZE ::
         windowsAux f ((w :: ws).drop (CHUNK_SIZE - CHUNK_OVERLAP))

/-- All word windows over a word sequence. -/
def wordWindows (ws : List Str) : List (List Str) := windowsAux ws.length ws

/-- The windows actually emitted as chunks: the source keeps a window only
when its joined text is longer than 20 characters after stripping. -/
def emittedWindows (ws : List Str) : List (List Str) :=
  (wordWindows ws).filter (fun w => 20 < (stripPy (joinWords w)).length)

/-- The word sequence the window loop of `smart_chunk` runs on for one
page: the whitespace-split non-table residue (src/ingest.py lines
204-212). -/
def pageNonTableWords (p : PageT) : List Str :=
  let tables := TableDetector.extract_table_blocks p.text
  let lines := splitLines p.text
  let nonTableLines := (lines.enum.filter (fun il =>
      !inTableRanges tables il.1 && !(stripPy il.2).isEmpty)).map (fun il => il.2)
  splitWs (joinLines nonTableLines)

/-- Per-page body of `smart_chunk` (src/ingest.py lines 178-230): table
chunks for qualifying blocks, then word-window chunks over the non-table
residue. -/
def pageChunks (p : PageT) : List ChunkT :=
  let tables := TableDetector.extract_table_blocks p.text
  let tableChunks := tables.filterMap (fun t =>
    if 50 < t.text.length then
      some (ChunkT.mk t.text p.page (detect_section t.text) true)
    else none)
  tableChunks ++ (emittedWindows (pageNonTableWords p)).map (fun w =>
    ChunkT.mk (joinWords w) p.page (detect_section (joinWords w)) false)

/-- `smart_chunk` (src/ingest.py lines 174-232). -/
def smart_chunk (pages : List PageT) : List ChunkT := pages.flatMap pageChunks

/-- The C1 question (the apostrophe is built from its code point). -/
def qPctTesla : Str :=
  strOf "What percentage of Tesla" ++ apos ::
  strOf "s 2023 total revenue came from automotive sales?"

/-- The C2 question. -/
def qShares : Str :=
  strOf "How many shares of common stock were issued and outstanding as of October 18, 2024?"

/-- The C2 context sentence. -/
def ctxSharesPlain : Str :=
  strOf "15,115,823,000 shares of common stock were issued and outstanding as of October 18, 2024."

/-- A context containing the C2 sentence, preceded by an unrelated
billions-format figure inside the date window. -/
def ctxSharesDecoy : Str :=
  strOf "As of the filing, 9,999,999,999 widgets were held. " ++ ctxSharesPlain

/-- The synthetic two-line term-debt context of the round-trip property. -/
def debtCtxOf (x y : Nat) : Str :=
  (strOf "Term debt, current portion $" ++ fmtComma x) ++
  '\n' :: (strOf "Term debt, net of current portion $" ++ fmtComma y)

/-- A context carrying only a combined total term debt figure. -/
def ctxDebtCombined : Str := strOf "Total term debt $98,186"

/-- The C6 context. -/
def ctxPct : Str := strOf "Automotive sales $78,509\nTotal revenues $96,773"

/-- The C6 context with the two figures swapped (total below automotive). -/
def ctxPctSwapped : Str := strOf "Automotive sales $96,773\nTotal revenues $78,509"

/-- The expected C6 answer string. -/
def pctAnswer : Str :=
  strOf "Approximately 81.1% ($78,509M out of $96,773M total revenue)"

/-- The C7 out-of-scope question. -/
def qColor : Str := strOf "What color is the Cybertruck?"

/-- A dated shares question for the C5 scenario. -/
def qSharesShort : Str := strOf "How many shares as of October 18, 2024?"

/-- A context whose only billions-format figure is a shareholders-of-record
count, together with the ending-balance and common-stock-outstanding cues. -/
def ctxSharesRecord : Str :=
  strOf "Ending balances. There were 15,115,823,000 shareholders of record. Common stock outstanding"

/-- A date window mentioning only a shareholders-of-record count. -/
def windowRecord : Str := strOf " 15,115,823,000 shareholders of record "

/-- A sample retrieved chunk for the pipeline scenarios. -/
def chunkSample : ChunkR :=
  ⟨strOf "Total term debt $98,186", strOf "apple_10k.pdf", 34, true⟩

/-- A generation call that always raises. -/
def errLLM : Str → Str → Except Unit AnswerS := fun _ _ => Except.error ()

/-- A C8 query. -/
def qDebtTotal : Str := strOf "What is the total term debt?"

/-- A shares question with no parseable date. -/
def qSharesNoDate : Str := strOf "How many shares are outstanding?"

/-- The next character (if any) is not a digit: the boundary condition under
which a greedy number match cannot extend into the following text. -/
def headNotDig : Str → Prop
  | [] => True
  | c :: _ => isDig c = false

/-- C1 counterexample: the percentage-of-revenue question is classified as
numerical, not calculation, because the revenue rule precedes the
percentage rule. -/
theorem classify_percentage_query_counterexample :
    (QueryClassifier.classify qPctTesla).qtype = QType.numerical ∧
    (QueryClassifier.classify qPctTesla).qtype ≠ QType.calculation := by
  decide

/-- C1 (amended): `classify` on the Tesla automotive-percentage question
returns type numerical with the revenue keywords and a number output shape;
the question is routed to plain revenue extraction. -/
theorem classify_percentage_query_routes_to_revenue :
    QueryClassifier.classify qPctTesla =
      ⟨QType.numerical, [strOf "total net sales", strOf "revenue", strOf "sales"],
       some CompanyTag.tesla, ExpOut.number⟩ := by
  decide

/-- C10: a parseable date in the question is a hard precondition of
`extract_shares`: with no date match the extractor returns none for every
context. -/
theorem extract_shares_requires_date (context query : Str)
    (h : searchAux tryDateSharesAt query = none) :
    NumericalExtractor.extract_shares context query = none := by
  unfold NumericalExtractor.extract_shares
  rw [h]

/-- C10 witness: a context that plainly states the shares figure still
yields none when the question has no date. -/
theorem extract_shares_requires_date_witness :
    NumericalExtractor.extract_shares ctxSharesPlain qSharesNoDate = none :=
  extract_shares_requires_date ctxSharesPlain qSharesNoDate (by decide)

/-- C4 counterexample: a context with only a combined total term debt
figure yields none, not the combined figure. -/
theorem extract_debt_combined_total_counterexample :
    NumericalExtractor.extract_debt ctxDebtCombined = none ∧
    NumericalExtractor.extract_debt ctxDebtCombined ≠
      some (strOf "$98,186 million") := by
  decide

/-- C4 (amended): `extract_debt` answers only when both the current and the
non-current component are found; a lone component or a lone combined total
yields none. -/
theorem extract_debt_requires_both_components :
    (∀ ctx s, NumericalExtractor.extract_debt ctx = some s →
      (debtCurrent ctx).isSome ∧ (debtNoncurrent ctx).isSome) ∧
    NumericalExtractor.extract_debt ctxDebtCombined = none := by
  constructor
  · intro ctx s h
    unfold NumericalExtractor.extract_debt at h
    rcases hc : debtCurrent ctx with _ | c <;>
      rcases hn : debtNoncurrent ctx with _ | n <;>
        rw [hc, hn] at h <;> simp_all
  · decide

/-- C4 witness: on a context holding both components the extractor answers,
and both component scans indeed succeed. -/
theorem extract_debt_requires_both_components_witness :
    (debtCurrent (debtCtxOf 9822 88364)).isSome ∧
    (debtNoncurrent (debtCtxOf 9822 88364)).isSome :=
  extract_debt_requires_both_components.1 (debtCtxOf 9822 88364)
    (strOf "$98,186 million") (by decide)

/-- C5 counterexample: with the ending-balance cue present, the extractor
returns the first billions-format figure of the context even though its
only occurrence is a shareholders-of-record count. -/
theorem extract_shares_record_counterexample :
    NumericalExtractor.extract_shares ctxSharesRecord qSharesShort =
      some (strOf "15,115,823,000 shares") ∧
    containsSub ctxSharesRecord
      (strOf "15,115,823,000 shareholders of record") = true ∧
    containsSub ctxSharesRecord (strOf "issued and outstanding") = false := by
  decide

/-- C5 (amended): the date-window strategy of `extract_shares` does reject
every match when the window mentions shareholders of record. -/
theorem shares_date_window_rejects_record (w : Str)
    (h : containsSub (lowerS w) (strOf "shareholders of record") = true) :
    sharesFromDateWindow w = none := by
  unfold sharesFromDateWindow
  cases hf : findallB3 w with
  | nil => rfl
  | cons n t => simp [h]

/-- C5 witness: a window that names only a shareholders-of-record count is
rejected. -/
theorem shares_date_window_rejects_record_witness :
    sharesFromDateWindow windowRecord = none :=
  shares_date_window_rejects_record windowRecord (by decide)

/-- C2 counterexample: a context containing the exact C2 sentence but with
an earlier billions-format figure in the date window makes the pipeline
answer with the decoy figure, so the claim fails for that context. -/
theorem answer_shares_decoy_counterexample :
    SmartLLM.answer (fun _ => []) qShares ctxSharesDecoy =
      ⟨strOf "9,999,999,999 shares", []⟩ ∧
    containsSub ctxSharesDecoy ctxSharesPlain = true ∧
    strOf "9,999,999,999 shares" ≠ strOf "15,115,823,000 shares" := by
  refine ⟨by rfl, by decide, by decide⟩

/-- C2 (amended): with the context equal to the stated sentence, the
answering path classifies the question as numerical, routes it to
`extract_shares`, and answers exactly with the stated shares string,
independently of the generation model. -/
theorem answer_shares_plain_exact (gen : Str → Str) :
    SmartLLM.answer gen qShares ctxSharesPlain =
      ⟨strOf "15,115,823,000 shares", []⟩ := by
  rfl

/-- C2 witness at a concrete generation model. -/
theorem answer_shares_plain_exact_witness :
    SmartLLM.answer (fun _ => strOf "ignored") qShares ctxSharesPlain =
      ⟨strOf "15,115,823,000 shares", []⟩ :=
  answer_shares_plain_exact (fun _ => strOf "ignored")

/-- C6: on the stated figures the calculation extractor answers with the
81.1 percent string echoing both dollar figures, and in general it answers
only when the total strictly exceeds the automotive figure. -/
theorem calculate_percentage_automotive_spec :
    (CalculationExtractor.calculate_percentage ctxPct = some pctAnswer ∧
     containsSub pctAnswer (strOf "81.1%") = true ∧
     containsSub pctAnswer (strOf "$78,509") = true ∧
     containsSub pctAnswer (strOf "$96,773") = true) ∧
    (∀ ctx a t, searchAux tryAutomotiveAt ctx = some a →
       searchAux tryTotalRevenuesAt ctx = some t → ¬ a < t →
       CalculationExtractor.calculate_percentage ctx = none) := by
  constructor
  · decide
  · intro ctx a t ha ht hlt
    unfold CalculationExtractor.calculate_percentage
    rw [ha, ht]
    simp [hlt]

/-- C6 witness: with the figures swapped the sanity check fires and the
extractor returns none. -/
theorem calculate_percentage_automotive_spec_witness :
    CalculationExtractor.calculate_percentage ctxPctSwapped = none :=
  calculate_percentage_automotive_spec.2 ctxPctSwapped 96773 78509
    (by decide) (by decide) (by decide)

/-- C7: any question containing an out-of-scope trigger term is answered
with the fixed refusal for every context and every generation model, so
neither an extractor result nor the model can influence the answer. -/
theorem answer_out_of_scope_refusal (gen : Str → Str) (q context : Str)
    (h : ∃ t ∈ outOfScopeTerms, containsSub (lowerS q) t = true) :
    SmartLLM.answer gen q context = ⟨refusalAnswer, []⟩ := by
  have hq : QueryClassifier.classify q =
      ⟨QType.out_of_scope, [], none, ExpOut.text⟩ := by
    unfold QueryClassifier.classify
    rw [if_pos (List.any_eq_true.mpr h)]
  simp [SmartLLM.answer, hq]

/-- C7 witness at the Cybertruck-color question. -/
theorem answer_out_of_scope_refusal_witness :
    SmartLLM.answer (fun _ => []) qColor (strOf "Tesla 10-K") =
      ⟨refusalAnswer, []⟩ :=
  answer_out_of_scope_refusal (fun _ => []) qColor (strOf "Tesla 10-K")
    ⟨strOf "color", by decide, by decide⟩

/-- C8 counterexample: when the generation call raises, the pipeline
returns empty sources even though the ordered chunks used for the context
have a nonempty (document, page) listing, so the sources part of the claim
fails. -/
theorem answer_question_failure_sources_counterexample :
    ImprovedRAGPipeline.answer_question [chunkSample] errLLM qDebtTotal =
      ⟨notSpecifiedAnswer, []⟩ ∧
    ((orderedChunks [chunkSample] qDebtTotal).take 5).map
      (fun c => (c.document, c.page)) = [(strOf "apple_10k.pdf", 34)] ∧
    ([] : List (Str × Nat)) ≠ [(strOf "apple_10k.pdf", 34)] := by
  refine ⟨by rfl, by decide, by decide⟩

/-- C8 (amended): a raised generation call is caught and mapped to the
fixed not-specified answer with empty sources (never propagated), while the
successful path returns the stripped answer with the (document, page)
pairs of the first five ordered chunks. -/
theorem answer_question_generation_failure_behavior :
    (∀ (chunks : List ChunkR) (q : Str), chunks ≠ [] →
       ImprovedRAGPipeline.answer_question chunks errLLM q =
         ⟨notSpecifiedAnswer, []⟩) ∧
    (∀ (chunks : List ChunkR) (q : Str) (r : AnswerS), chunks ≠ [] →
       ImprovedRAGPipeline.answer_question chunks (fun _ _ => Except.ok r) q =
         ⟨stripPy r.answer,
          ((orderedChunks chunks q).take 5).map (fun c => (c.document, c.page))⟩) := by
  constructor
  · intro chunks q h
    unfold ImprovedRAGPipeline.answer_question
    rw [if_neg h]
    rfl
  · intro chunks q r h
    unfold ImprovedRAGPipeline.answer_question
    rw [if_neg h]

/-- C8 witness: both branches at a concrete chunk list. -/
theorem answer_question_generation_failure_behavior_witness :
    ImprovedRAGPipeline.answer_question [chunkSample] errLLM qDebtTotal =
      ⟨notSpecifiedAnswer, []⟩ ∧
    ImprovedRAGPipeline.answer_question [chunkSample]
        (fun _ _ => Except.ok ⟨strOf " hi ", []⟩) qDebtTotal =
      ⟨stripPy (strOf " hi "),
       ((orderedChunks [chunkSample] qDebtTotal).take 5).map
         (fun c => (c.document, c.page))⟩ :=
  ⟨answer_question_generation_failure_behavior.1 [chunkSample] qDebtTotal
     (by decide),
   answer_question_generation_failure_behavior.2 [chunkSample] qDebtTotal
     ⟨strOf " hi ", []⟩ (by decide)⟩

/-- Fuel irrelevance of the decimal rendering worker. -/
theorem natDigitsAux_congr : ∀ f g n, n < f → n < g →
    natDigitsAux f n = natDigitsAux g n := by
  intro f
  induction f with
  | zero => intro g n h; omega
  | succ f ih =>
    intro g n hf hg
    cases g with
    | zero => omega
    | succ g =>
      by_cases h10 : n < 10
      · simp [natDigitsAux, h10]
      · have hdn : n / 10 < n := Nat.div_lt_self (by omega) (by omega)
        simp only [natDigitsAux, if_neg h10]
        rw [ih g (n / 10) (by omega) (by omega)]

/-- Rendering of a single-digit number. -/
theorem natDigits_lt10 {n : Nat} (h : n < 10) : natDigits n = [digitChar n] := by
  simp [natDigits, natDigitsAux, h]

/-- Recursion of the decimal rendering for two or more digits. -/
theorem natDigits_ge10 {n : Nat} (h : 10 ≤ n) :
    natDigits n = natDigits (n / 10) ++ [digitChar (n % 10)] := by
  have hdn : n / 10 < n := Nat.div_lt_self (by omega) (by omega)
  unfold natDigits
  conv_lhs => rw [natDigitsAux]
  rw [if_neg (by omega)]
  rw [natDigitsAux_congr n (n / 10 + 1) (n / 10) (by omega) (by omega)]

/-- Digit characters are digits. -/
theorem digitChar_isDig {m : Nat} (h : m < 10) : isDig (digitChar m) = true := by
  interval_cases m <;> decide

/-- Digit characters decode to their value. -/
theorem digVal_digitChar {m : Nat} (h : m < 10) : digVal (digitChar m) = m := by
  interval_cases m <;> decide

/-- Every character of a decimal rendering is a digit. -/
theorem natDigits_all_dig : ∀ n, ∀ c ∈ natDigits n, isDig c = true := by
  intro n
  induction n using Nat.strong_induction_on with
  | _ n ih =>
    intro c hc
    by_cases h10 : n < 10
    · rw [natDigits_lt10 h10] at hc
      simp at hc
      subst hc
      exact digitChar_isDig h10
    · rw [natDigits_ge10 (by omega)] at hc
      rcases List.mem_append.mp hc with h | h
      · exact ih (n / 10) (Nat.div_lt_self (by omega) (by omega)) c h
      · simp at h
        subst h
        exact digitChar_isDig (Nat.mod_lt _ (by omega))

/-- Decimal renderings are nonempty. -/
theorem natDigits_ne_nil (n : Nat) : natDigits n ≠ [] := by
  by_cases h10 : n < 10
  · rw [natDigits_lt10 h10]; simp
  · rw [natDigits_ge10 (by omega)]; simp

/-- Folding the decimal accumulator over a suffix. -/
theorem digitsFold (B : Str) : ∀ a,
    List.foldl (fun x c => x * 10 + digVal c) a B =
      a * 10 ^ B.length + digitsVal B := by
  induction B with
  | nil => intro a; simp [digitsVal]
  | cons c t ih =>
    intro a
    have hv : digitsVal (c :: t) = digVal c * 10 ^ t.length + digitsVal t := by
      have h0 : digitsVal (c :: t) =
          List.foldl (fun x c => x * 10 + digVal c) (0 * 10 + digVal c) t := rfl
      rw [h0, ih (0 * 10 + digVal c)]
      ring
    simp only [List.foldl_cons, List.length_cons]
    rw [ih, hv]
    ring

/-- Decimal value of a concatenation. -/
theorem digitsVal_append (A B : Str) :
    digitsVal (A ++ B) = digitsVal A * 10 ^ B.length + digitsVal B := by
  unfold digitsVal
  rw [List.foldl_append]
  exact digitsFold B _

/-- The decimal rendering round-trips through `digitsVal`. -/
theorem digitsVal_natDigits : ∀ n, digitsVal (natDigits n) = n := by
  intro n
  induction n using Nat.strong_induction_on with
  | _ n ih =>
    by_cases h10 : n < 10
    · rw [natDigits_lt10 h10]
      simp [digitsVal, digVal_digitChar h10]
    · rw [natDigits_ge10 (by omega), digitsVal_append]
      have : digitsVal [digitChar (n % 10)] = n % 10 := by
        simp [digitsVal, digVal_digitChar (Nat.mod_lt n (by omega))]
      rw [this, ih (n / 10) (Nat.div_lt_self (by omega) (by omega))]
      simp
      omega

/-- Length of a one-digit rendering. -/
theorem natDigits_len1 {n : Nat} (h : n < 10) : (natDigits n).length = 1 := by
  rw [natDigits_lt10 h]; rfl

/-- Length bound for renderings below one hundred. -/
theorem natDigits_len_le2 {n : Nat} (h : n < 100) : (natDigits n).length ≤ 2 := by
  by_cases h10 : n < 10
  · rw [natDigits_len1 h10]; omega
  · rw [natDigits_ge10 (by omega), List.length_append, natDigits_len1 (by omega)]
    simp only [List.length_singleton]
    omega

/-- Length bound for renderings below one thousand. -/
theorem natDigits_len_le3 {n : Nat} (h : n < 1000) : (natDigits n).length ≤ 3 := by
  by_cases h10 : n < 10
  · rw [natDigits_len1 h10]; omega
  · rw [natDigits_ge10 (by omega), List.length_append]
    have := natDigits_len_le2 (n := n / 10) (by omega)
    simp only [List.length_singleton]
    omega

/-- Length of the zero-padded group rendering. -/
theorem pad3_length {m : Nat} (h : m < 1000) : (pad3 m).length = 3 := by
  unfold pad3
  rw [List.length_append, List.length_replicate]
  have h3 := natDigits_len_le3 h
  have h1 : 0 < (natDigits m).length := List.length_pos.mpr (natDigits_ne_nil m)
  omega

/-- All characters of a padded group are digits. -/
theorem pad3_all_dig (m : Nat) : ∀ c ∈ pad3 m, isDig c = true := by
  intro c hc
  rcases List.mem_append.mp hc with h | h
  · rw [List.eq_of_mem_replicate h]; decide
  · exact natDigits_all_dig m c h

/-- Leading zeros do not change the decoded value. -/
theorem digitsVal_replicate_zero (k : Nat) (ds : Str) :
    digitsVal (List.replicate k '0' ++ ds) = digitsVal ds := by
  unfold digitsVal
  rw [List.foldl_append]
  have : List.foldl (fun a c => a * 10 + digVal c) 0 (List.replicate k '0') = 0 := by
    induction k with
    | zero => rfl
    | succ k ih => simpa [List.replicate_succ] using ih
  rw [this]

/-- The padded group decodes to its value. -/
theorem pad3_val (m : Nat) : digitsVal (pad3 m) = m := by
  unfold pad3
  rw [digitsVal_replicate_zero, digitsVal_natDigits]

/-- Fuel irrelevance of the base-1000 grouping worker. -/
theorem fmtGroupsAux_congr : ∀ f g n, n < f → n < g →
    fmtGroupsAux f n = fmtGroupsAux g n := by
  intro f
  induction f with
  | zero => intro g n h; omega
  | succ f ih =>
    intro g n hf hg
    cases g with
    | zero => omega
    | succ g =>
      by_cases hk : n < 1000
      · simp [fmtGroupsAux, hk]
      · have hdn : n / 1000 < n := Nat.div_lt_self (by omega) (by omega)
        simp only [fmtGroupsAux, if_neg hk]
        rw [ih g (n / 1000) (by omega) (by omega)]

/-- Grouping of a number below one thousand. -/
theorem fmtGroups_lt {n : Nat} (h : n < 1000) : fmtGroups n = [n] := by
  simp [fmtGroups, fmtGroupsAux, h]

/-- Grouping recursion for one thousand and above. -/
theorem fmtGroups_ge {n : Nat} (h : 1000 ≤ n) :
    fmtGroups n = fmtGroups (n / 1000) ++ [n % 1000] := by
  have hdn : n / 1000 < n := Nat.div_lt_self (by omega) (by omega)
  unfold fmtGroups
  conv_lhs => rw [fmtGroupsAux]
  rw [if_neg (by omega)]
  rw [fmtGroupsAux_congr n (n / 1000 + 1) (n / 1000) (by omega) (by omega)]

/-- The group list is never empty. -/
theorem fmtGroups_ne_nil (n : Nat) : fmtGroups n ≠ [] := by
  by_cases h : n < 1000
  · rw [fmtGroups_lt h]; simp
  · rw [fmtGroups_ge (by omega)]; simp

/-- Every group is below one thousand. -/
theorem fmtGroups_all_lt : ∀ n, ∀ m ∈ fmtGroups n, m < 1000 := by
  intro n
  induction n using Nat.strong_induction_on with
  | _ n ih =>
    intro m hm
    by_cases h : n < 1000
    · rw [fmtGroups_lt h] at hm
      simp at hm
      omega
    · rw [fmtGroups_ge (by omega)] at hm
      rcases List.mem_append.mp hm with h1 | h1
      · exact ih (n / 1000) (Nat.div_lt_self (by omega) (by omega)) m h1
      · simp at h1
        subst h1
        exact Nat.mod_lt _ (by omega)

/-- The leading group of a positive number is positive. -/
theorem fmtGroups_head_pos : ∀ n, 0 < n → ∀ g gs, fmtGroups n = g :: gs → 0 < g := by
  intro n
  induction n using Nat.strong_induction_on with
  | _ n ih =>
    intro hn g gs hgg
    by_cases h : n < 1000
    · rw [fmtGroups_lt h] at hgg
      injection hgg with h1 h2
      omega
    · rw [fmtGroups_ge (by omega)] at hgg
      rcases hq : fmtGroups (n / 1000) with _ | ⟨g0, gs0⟩
      · exact absurd hq (fmtGroups_ne_nil _)
      · rw [hq] at hgg
        simp only [List.cons_append] at hgg
        injection hgg with h1 h2
        subst h1
        exact ih (n / 1000) (Nat.div_lt_self (by omega) (by omega))
          (by have : 1000 ≤ n := by omega
              exact Nat.div_pos (by omega) (by omega)) g0 gs0 hq

/-- The group fold reassembles the number. -/
theorem fmtGroups_val : ∀ n,
    List.foldl (fun a g => a * 1000 + g) 0 (fmtGroups n) = n := by
  intro n
  induction n using Nat.strong_induction_on with
  | _ n ih =>
    by_cases h : n < 1000
    · rw [fmtGroups_lt h]
      simp
    · rw [fmtGroups_ge (by omega), List.foldl_append,
          ih (n / 1000) (Nat.div_lt_self (by omega) (by omega))]
      simp
      omega

/-- Unfolding of the digit test. -/
theorem isDig_iff {c : Char} : isDig c = true ↔ ('0' ≤ c ∧ c ≤ '9') := by
  by_cases h : ('0' ≤ c ∧ c ≤ '9') <;> simp [isDig, h]

/-- Digits and the comma are not whitespace. -/
theorem isPySpace_false_of {c : Char} (h : isDig c = true ∨ c = ',') :
    isPySpace c = false := by
  rcases h with h | h
  · unfold isPySpace
    rw [if_neg]
    rintro (rfl | rfl | rfl | rfl | rfl | rfl) <;> exact absurd h (by decide)
  · subst h; decide

/-- Digits and the comma are fixed by lower-casing. -/
theorem pyLowerChar_eq_self_of {c : Char} (h : isDig c = true ∨ c = ',') :
    pyLowerChar c = c := by
  rcases h with h | h
  · unfold pyLowerChar
    rw [if_neg]
    rintro ⟨h1, _⟩
    have h9 : c ≤ '9' := (isDig_iff.mp h).2
    have : ('A' : Char) ≤ '9' := le_trans h1 h9
    exact absurd this (by decide)
  · subst h; decide

/-- A map that fixes every member is the identity. -/
theorem map_self_of {α : Type} (l : List α) (f : α → α)
    (h : ∀ a ∈ l, f a = a) : l.map f = l := by
  induction l with
  | nil => rfl
  | cons a t ih =>
    simp only [List.map_cons]
    rw [h a (by simp), ih (fun b hb => h b (by simp [hb]))]

/-- Every character of a thousands-separated rendering is a digit or a
comma. -/
theorem fmtComma_chars : ∀ n, ∀ c ∈ fmtComma n, isDig c = true ∨ c = ',' := by
  intro n c hc
  unfold fmtComma at hc
  rcases hq : fmtGroups n with _ | ⟨g, gs⟩
  · rw [hq] at hc; simp at hc
  · rw [hq] at hc
    rcases List.mem_append.mp hc with h | h
    · exact Or.inl (natDigits_all_dig g c h)
    · rcases List.mem_flatMap.mp h with ⟨m, _, hm⟩
      rcases List.mem_cons.mp hm with hm1 | hm1
      · exact Or.inr hm1
      · exact Or.inl (pad3_all_dig m c hm1)

/-- Thousands-separated renderings are nonempty. -/
theorem fmtComma_ne_nil (n : Nat) : fmtComma n ≠ [] := by
  unfold fmtComma
  rcases hq : fmtGroups n with _ | ⟨g, gs⟩
  · exact absurd hq (fmtGroups_ne_nil n)
  · simp [natDigits_ne_nil g]

/-- Lower-casing fixes a thousands-separated rendering. -/
theorem lowerS_fmtComma (n : Nat) : lowerS (fmtComma n) = fmtComma n :=
  map_self_of _ _ (fun c hc => pyLowerChar_eq_self_of (fmtComma_chars n c hc))

/-- A thousands-separated rendering survives a whitespace skip. -/
theorem ws0_fmtComma (n : Nat) : ws0 (fmtComma n) = fmtComma n := by
  unfold ws0
  rcases hq : fmtComma n with _ | ⟨c, t⟩
  · rfl
  · rw [List.dropWhile_cons_of_neg]
    rw [isPySpace_false_of (fmtComma_chars n c (by rw [hq]; simp))]
    simp

/-- The exact-digit matcher consumes a digit block of its length. -/
theorem takeDigitsN_exact : ∀ (ds : Str) (r : Str),
    (∀ c ∈ ds, isDig c = true) →
    takeDigitsN ds.length (ds ++ r) = some (ds, r) := by
  intro ds
  induction ds with
  | nil => intro r _; rfl
  | cons c t ih =>
    intro r h
    have h0 : takeDigitsN (t.length + 1) (c :: (t ++ r)) =
        if isDig c then (takeDigitsN t.length (t ++ r)).map
          (fun p => (c :: p.1, p.2)) else none := rfl
    simp only [List.length_cons, List.cons_append, h0, if_pos (h c (by simp))]
    rw [ih r (fun b hb => h b (by simp [hb]))]
    rfl

/-- Success of the exact-digit matcher determines the split. -/
theorem takeDigitsN_spec : ∀ (k : Nat) (s d r : Str),
    takeDigitsN k s = some (d, r) → d.length = k ∧ s = d ++ r := by
  intro k
  induction k with
  | zero =>
    intro s d r h
    rw [show takeDigitsN 0 s = some ([], s) from rfl] at h
    injection h with h1
    injection h1 with h2 h3
    subst h2; subst h3
    exact ⟨rfl, rfl⟩
  | succ k ih =>
    intro s d r h
    cases s with
    | nil => exact Option.noConfusion h
    | cons c t =>
      rw [show takeDigitsN (k + 1) (c :: t) =
          (if isDig c then (takeDigitsN k t).map (fun p => (c :: p.1, p.2))
           else none) from rfl] at h
      by_cases hd : isDig c = true
      · rw [if_pos hd] at h
        rcases ht : takeDigitsN k t with _ | ⟨d0, r0⟩
        · rw [ht] at h; exact Option.noConfusion h
        · rw [ht] at h
          injection h with h1
          injection h1 with h2 h3
          rcases ih t d0 r0 ht with ⟨hl, hs⟩
          subst h3
          rw [← h2]
          exact ⟨by simp [hl], by simp [hs]⟩
      · rw [if_neg hd] at h; exact Option.noConfusion h

/-- A comma group determines its shape and length. -/
theorem oneCommaGroup_spec : ∀ (s g r : Str), oneCommaGroup s = some (g, r) →
    g.length = 4 ∧ s = g ++ r := by
  intro s g r h
  cases s with
  | nil => exact Option.noConfusion h
  | cons c t =>
    rw [show oneCommaGroup (c :: t) =
        (if c = ',' then (takeDigitsN 3 t).map (fun p => (',' :: p.1, p.2))
         else none) from rfl] at h
    by_cases hc : c = ','
    · rw [if_pos hc] at h
      rcases ht : takeDigitsN 3 t with _ | ⟨d0, r0⟩
      · rw [ht] at h; exact Option.noConfusion h
      · rw [ht] at h
        injection h with h1
        injection h1 with h2 h3
        rcases takeDigitsN_spec 3 t d0 r0 ht with ⟨hl, hs⟩
        subst h3
        rw [← h2]
        subst hc
        exact ⟨by simp [hl], by simp [hs]⟩
    · rw [if_neg hc] at h; exact Option.noConfusion h

/-- Fuel irrelevance of the star-group consumer. -/
theorem starGroupsAux_congr : ∀ f g s, s.length ≤ f → s.length ≤ g →
    starGroupsAux f s = starGroupsAux g s := by
  intro f
  induction f with
  | zero =>
    intro g s hf _
    have hs : s = [] := List.eq_nil_of_length_eq_zero (by omega)
    subst hs
    cases g with
    | zero => rfl
    | succ g => rfl
  | succ f ih =>
    intro g s hf hg
    cases g with
    | zero =>
      have hs : s = [] := List.eq_nil_of_length_eq_zero (by omega)
      subst hs
      rfl
    | succ g =>
      rcases ho : oneCommaGroup s with _ | ⟨grp, r⟩
      · simp only [starGroupsAux, ho]
      · rcases oneCommaGroup_spec s grp r ho with ⟨hl, hs⟩
        have hr : r.length + 4 = s.length := by
          rw [hs, List.length_append, hl]; omega
        simp only [starGroupsAux, ho]
        rw [ih g r (by omega) (by omega)]

/-- The star consumer walks exactly over a rendered group train and stops
at a non-group tail. -/
theorem star_flat : ∀ (gs : List Nat) (r : Str) (f : Nat),
    (∀ m ∈ gs, m < 1000) → oneCommaGroup r = none →
    (gs.flatMap (fun m => ',' :: pad3 m) ++ r).length ≤ f →
    starGroupsAux f (gs.flatMap (fun m => ',' :: pad3 m) ++ r) =
      (gs.flatMap (fun m => ',' :: pad3 m), r) := by
  intro gs
  induction gs with
  | nil =>
    intro r f _ hr hf
    simp only [List.flatMap_nil, List.nil_append]
    cases f with
    | zero => rfl
    | succ f => simp only [starGroupsAux, hr]
  | cons m gs ih =>
    intro r f hlt hr hf
    have hm : m < 1000 := hlt m (by simp)
    have hflat : (m :: gs).flatMap (fun m => ',' :: pad3 m) ++ r =
        ',' :: (pad3 m ++ (gs.flatMap (fun m => ',' :: pad3 m) ++ r)) := by
      simp [List.flatMap_cons]
    cases f with
    | zero =>
      rw [hflat] at hf
      simp at hf
    | succ f =>
      rw [hflat]
      have hone : oneCommaGroup
          (',' :: (pad3 m ++ (gs.flatMap (fun m => ',' :: pad3 m) ++ r))) =
          some (',' :: pad3 m, gs.flatMap (fun m => ',' :: pad3 m) ++ r) := by
        rw [show oneCommaGroup
            (',' :: (pad3 m ++ (gs.flatMap (fun m => ',' :: pad3 m) ++ r))) =
            (takeDigitsN 3 (pad3 m ++ (gs.flatMap (fun m => ',' :: pad3 m) ++ r))).map
              (fun p => (',' :: p.1, p.2)) from by
          rw [show oneCommaGroup (',' :: (pad3 m ++ (gs.flatMap (fun m => ',' :: pad3 m) ++ r))) =
              (if ',' = ',' then (takeDigitsN 3 (pad3 m ++ (gs.flatMap (fun m => ',' :: pad3 m) ++ r))).map (fun p => (',' :: p.1, p.2)) else none) from rfl]
          rw [if_pos rfl]]
        have he := takeDigitsN_exact (pad3 m)
          (gs.flatMap (fun m => ',' :: pad3 m) ++ r) (pad3_all_dig m)
        rw [pad3_length hm] at he
        rw [he]
        rfl
      have hlen : (gs.flatMap (fun m => ',' :: pad3 m) ++ r).length ≤ f := by
        rw [hflat] at hf
        simp only [List.length_cons, List.length_append] at hf ⊢
        omega
      simp only [starGroupsAux, hone]
      rw [ih r f (fun a ha => hlt a (by simp [ha])) hr hlen]
      simp [List.flatMap_cons]

/-- The exact-digit matcher fails immediately on a non-digit head. -/
theorem takeDigitsN_none_of_headNotDig : ∀ (k : Nat) (s : Str),
    headNotDig s → takeDigitsN (k + 1) s = none := by
  intro k s hs
  cases s with
  | nil => rfl
  | cons c t =>
    rw [show takeDigitsN (k + 1) (c :: t) =
        (if isDig c then (takeDigitsN k t).map (fun p => (c :: p.1, p.2))
         else none) from rfl]
    rw [if_neg]
    simp only [headNotDig] at hs
    simp [hs]

/-- The greedy number matcher on a digit head block followed by a group
train: it consumes exactly the block and the train. -/
theorem matchNumStar_split (D T r : Str) (hD : ∀ c ∈ D, isDig c = true)
    (h1 : 0 < D.length) (h3 : D.length ≤ 3) (hTr : headNotDig (T ++ r))
    (hstar : starGroupsAux (T ++ r).length (T ++ r) = (T, r)) :
    matchNumStar (D ++ (T ++ r)) = some (D ++ T, r) := by
  have hstar2 : starGroupsAux (T.length + r.length) (T ++ r) = (T, r) := by
    rw [← List.length_append]; exact hstar
  rcases D with _ | ⟨a, D1⟩
  · simp at h1
  rcases D1 with _ | ⟨b, D2⟩
  · -- one-digit head
    have ha : isDig a = true := hD a (by simp)
    have ht3 : takeDigitsN 3 (a :: (T ++ r)) = none := by
      rw [show takeDigitsN 3 (a :: (T ++ r)) =
          (if isDig a then (takeDigitsN 2 (T ++ r)).map (fun p => (a :: p.1, p.2))
           else none) from rfl]
      rw [takeDigitsN_none_of_headNotDig 1 _ hTr]
      simp
    have ht2 : takeDigitsN 2 (a :: (T ++ r)) = none := by
      rw [show takeDigitsN 2 (a :: (T ++ r)) =
          (if isDig a then (takeDigitsN 1 (T ++ r)).map (fun p => (a :: p.1, p.2))
           else none) from rfl]
      rw [takeDigitsN_none_of_headNotDig 0 _ hTr]
      simp
    have ht1 : takeDigitsN 1 (a :: (T ++ r)) = some ([a], T ++ r) := by
      have h := takeDigitsN_exact [a] (T ++ r) (by
        intro x hx
        simp only [List.mem_singleton] at hx
        subst hx
        exact ha)
      simpa using h
    simp only [matchNumStar, List.cons_append, List.nil_append]
    rw [ht3, ht2, ht1]
    simp [hstar, hstar2]
  rcases D2 with _ | ⟨c, D3⟩
  · -- two-digit head
    have ha : isDig a = true := hD a (by simp)
    have hb : isDig b = true := hD b (by simp)
    have ht3 : takeDigitsN 3 (a :: b :: (T ++ r)) = none := by
      rw [show takeDigitsN 3 (a :: b :: (T ++ r)) =
          (if isDig a then
            ((if isDig b then (takeDigitsN 1 (T ++ r)).map (fun p => (b :: p.1, p.2))
              else none)).map (fun p => (a :: p.1, p.2))
           else none) from rfl]
      rw [takeDigitsN_none_of_headNotDig 0 _ hTr]
      simp
    have ht2 : takeDigitsN 2 (a :: b :: (T ++ r)) = some ([a, b], T ++ r) := by
      have h := takeDigitsN_exact [a, b] (T ++ r) (by
        intro x hx
        simp only [List.mem_cons, List.not_mem_nil, or_false] at hx
        rcases hx with rfl | rfl
        · exact ha
        · exact hb)
      simpa using h
    simp only [matchNumStar, List.cons_append, List.nil_append]
    rw [ht3, ht2]
    simp [hstar, hstar2]
  · -- three-digit head
    have hD3 : D3 = [] := by
      simp only [List.length_cons] at h3
      exact List.eq_nil_of_length_eq_zero (by omega)
    subst hD3
    have ha : isDig a = true := hD a (by simp)
    have hb : isDig b = true := hD b (by simp)
    have hc : isDig c = true := hD c (by simp)
    have ht3 : takeDigitsN 3 (a :: b :: c :: (T ++ r)) =
        some ([a, b, c], T ++ r) := by
      have h := takeDigitsN_exact [a, b, c] (T ++ r) (by
        intro x hx
        simp only [List.mem_cons, List.not_mem_nil, or_false] at hx
        rcases hx with rfl | rfl | rfl
        · exact ha
        · exact hb
        · exact hc)
      simpa using h
    simp only [matchNumStar, List.cons_append, List.nil_append]
    rw [ht3]
    simp [hstar, hstar2]

/-- The thousands-separated rendering parses back as one number: the greedy
matcher consumes it whole when the following text cannot extend the match. -/
theorem matchNumStar_fmt (n : Nat) (r : Str)
    (hr1 : headNotDig r) (hr2 : oneCommaGroup r = none) :
    matchNumStar (fmtComma n ++ r) = some (fmtComma n, r) := by
  rcases hq : fmtGroups n with _ | ⟨g, gs⟩
  · exact absurd hq (fmtGroups_ne_nil n)
  have hglt : g < 1000 := fmtGroups_all_lt n g (by rw [hq]; simp)
  have hgs : ∀ m ∈ gs, m < 1000 := fun m hm =>
    fmtGroups_all_lt n m (by rw [hq]; simp [hm])
  have hfc : fmtComma n =
      natDigits g ++ gs.flatMap (fun m => ',' :: pad3 m) := by
    unfold fmtComma; rw [hq]
  have hTr : headNotDig (gs.flatMap (fun m => ',' :: pad3 m) ++ r) := by
    cases gs with
    | nil => simpa using hr1
    | cons m gs2 =>
      simp only [List.flatMap_cons, List.cons_append, List.append_assoc,
        headNotDig]
      decide
  have hstar : starGroupsAux (gs.flatMap (fun m => ',' :: pad3 m) ++ r).length
      (gs.flatMap (fun m => ',' :: pad3 m) ++ r) =
      (gs.flatMap (fun m => ',' :: pad3 m), r) :=
    star_flat gs r _ hgs hr2 (le_refl _)
  rw [hfc, List.append_assoc]
  exact matchNumStar_split (natDigits g) _ r (natDigits_all_dig g)
    (List.length_pos.mpr (natDigits_ne_nil g)) (natDigits_len_le3 hglt) hTr hstar

/-- Dropping the commas of a rendered group train leaves the padded
digits. -/
theorem filter_flat_pad3 : ∀ (gs : List Nat),
    (gs.flatMap (fun m => ',' :: pad3 m)).filter (fun c => isDig c) =
      gs.flatMap pad3 := by
  intro gs
  induction gs with
  | nil => rfl
  | cons m gs ih =>
    simp only [List.flatMap_cons, List.filter_append, List.filter_cons]
    rw [show (isDig ',') = false from by decide]
    simp only [Bool.false_eq_true, if_false]
    rw [List.filter_eq_self.mpr (fun c hc => pad3_all_dig m c hc), ih]

/-- Decoding a digit block followed by a padded group train folds the
groups in base 1000. -/
theorem digitsVal_flat_pad3 : ∀ (gs : List Nat) (D : Str),
    (∀ m ∈ gs, m < 1000) →
    digitsVal (D ++ gs.flatMap pad3) =
      List.foldl (fun a g => a * 1000 + g) (digitsVal D) gs := by
  intro gs
  induction gs with
  | nil => intro D _; simp
  | cons m gs ih =>
    intro D h
    have hm : m < 1000 := h m (by simp)
    have : D ++ (m :: gs).flatMap pad3 = (D ++ pad3 m) ++ gs.flatMap pad3 := by
      simp [List.flatMap_cons]
    rw [this, ih (D ++ pad3 m) (fun a ha => h a (by simp [ha]))]
    rw [digitsVal_append, pad3_length hm, pad3_val m]
    simp

/-- The value recovered from a thousands-separated rendering is the
number. -/
theorem numVal_fmtComma (n : Nat) : numVal (fmtComma n) = n := by
  rcases hq : fmtGroups n with _ | ⟨g, gs⟩
  · exact absurd hq (fmtGroups_ne_nil n)
  have hgs : ∀ m ∈ gs, m < 1000 := fun m hm =>
    fmtGroups_all_lt n m (by rw [hq]; simp [hm])
  have hfc : fmtComma n =
      natDigits g ++ gs.flatMap (fun m => ',' :: pad3 m) := by
    unfold fmtComma; rw [hq]
  unfold numVal
  rw [hfc, List.filter_append,
      List.filter_eq_self.mpr (fun c hc => natDigits_all_dig g c hc),
      filter_flat_pad3, digitsVal_flat_pad3 gs _ hgs, digitsVal_natDigits]
  have hv := fmtGroups_val n
  rw [hq] at hv
  simpa using hv

/-- The empty needle is contained everywhere. -/
theorem containsSub_nil_needle : ∀ s : Str, containsSub s [] = true := by
  intro s
  cases s with
  | nil => rfl
  | cons c t => simp [containsSub, List.isPrefixOf]

/-- A prefix occurrence witnesses containment. -/
theorem containsSub_of_prefix {hay nd : Str} (h : nd <+: hay) :
    containsSub hay nd = true := by
  cases hay with
  | nil =>
    have : nd = [] := List.prefix_nil.mp h
    subst this
    rfl
  | cons c t =>
    simp only [containsSub, Bool.or_eq_true]
    exact Or.inl (List.isPrefixOf_iff_prefix.mpr h)

/-- Containment survives appending on the right. -/
theorem containsSub_append_right {A nd : Str} (B : Str)
    (h : containsSub A nd = true) : containsSub (A ++ B) nd = true := by
  induction A with
  | nil =>
    have : nd = [] := by
      cases nd with
      | nil => rfl
      | cons x xs => simp [containsSub, List.isPrefixOf] at h
    subst this
    exact containsSub_nil_needle B
  | cons a t ih =>
    simp only [containsSub, Bool.or_eq_true] at h
    rcases h with h | h
    · have hp : nd <+: a :: t := List.isPrefixOf_iff_prefix.mp h
      exact containsSub_of_prefix (hp.trans (List.prefix_append _ B))
    · simp only [List.cons_append, containsSub, Bool.or_eq_true]
      exact Or.inr (ih h)

/-- Containment implies character membership transfer. -/
theorem mem_of_containsSub : ∀ {hay nd : Str} {c : Char},
    containsSub hay nd = true → c ∈ nd → c ∈ hay := by
  intro hay
  induction hay with
  | nil =>
    intro nd c h hc
    have : nd = [] := by
      cases nd with
      | nil => rfl
      | cons x xs => simp [containsSub, List.isPrefixOf] at h
    subst this
    simp at hc
  | cons a t ih =>
    intro nd c h hc
    simp only [containsSub, Bool.or_eq_true] at h
    rcases h with h | h
    · exact (List.isPrefixOf_iff_prefix.mp h).subset hc
    · exact List.mem_cons_of_mem a (ih h hc)

/-- Containment fails when the needle holds a character the haystack
lacks. -/
theorem containsSub_eq_false_of_missing {hay nd : Str} {c : Char}
    (hc : c ∈ nd) (hh : c ∉ hay) : containsSub hay nd = false := by
  by_contra h
  have h1 : containsSub hay nd = true := by
    cases h2 : containsSub hay nd with
    | true => rfl
    | false => exact absurd h2 h
  exact hh (mem_of_containsSub h1 hc)

/-- `splitLines` of a newline-free string is that single line. -/
theorem splitLines_single : ∀ A : Str, '\n' ∉ A → splitLines A = [A] := by
  intro A
  induction A with
  | nil => intro _; rfl
  | cons a t ih =>
    intro h
    have ha : a ≠ '\n' := fun he => h (by simp [he])
    have ht : '\n' ∉ t := fun he => h (by simp [he])
    simp only [splitLines, if_neg ha, ih ht]

/-- `splitLines` splits at the first newline after a newline-free prefix. -/
theorem splitLines_append : ∀ A B : Str, '\n' ∉ A →
    splitLines (A ++ '\n' :: B) = A :: splitLines B := by
  intro A
  induction A with
  | nil =>
    intro B _
    simp [splitLines]
  | cons a t ih =>
    intro B h
    have ha : a ≠ '\n' := fun he => h (by simp [he])
    have ht : '\n' ∉ t := fun he => h (by simp [he])
    simp only [List.cons_append, splitLines, if_neg ha, List.append_eq, ih B ht]

/-- Scanning for the dollar sign walks over dollar-free text. -/
theorem findDollarNum_through : ∀ (P R : Str), (∀ c ∈ P, c ≠ '$') →
    findDollarNum (P ++ '$' :: R) =
      (match matchNumStar (ws0 R) with
       | some p => some (numVal p.1)
       | none => findDollarNum R) := by
  intro P
  induction P with
  | nil =>
    intro R _
    simp only [List.nil_append, findDollarNum, if_pos rfl]
    rcases h : matchNumStar (ws0 R) with _ | ⟨m, rest⟩ <;> simp [h]
  | cons p t ih =>
    intro R h
    have hp : p ≠ '$' := h p (by simp)
    simp only [List.cons_append, findDollarNum, if_neg hp]
    exact ih R (fun c hc => h c (by simp [hc]))

/-- A line that ends with a dollar sign and a rendered number yields that
number. -/
theorem findDollarNum_line (P : Str) (x : Nat) (hP : ∀ c ∈ P, c ≠ '$') :
    findDollarNum (P ++ '$' :: fmtComma x) = some x := by
  rw [findDollarNum_through P (fmtComma x) hP]
  have hws : ws0 (fmtComma x) = fmtComma x := ws0_fmtComma x
  have hms : matchNumStar (fmtComma x) = some (fmtComma x, []) := by
    have h := matchNumStar_fmt x [] trivial rfl
    simpa using h
  rw [hws, hms]
  simp [numVal_fmtComma]

/-- A character that is neither a digit nor the comma never occurs in a
thousands-separated rendering. -/
theorem not_mem_fmtComma {c : Char} (h1 : isDig c = false) (h2 : c ≠ ',')
    (n : Nat) : c ∉ fmtComma n := by
  intro hmem
  rcases fmtComma_chars n c hmem with h | h
  · rw [h] at h1; exact Bool.noConfusion h1
  · exact h2 h

/-- Lower-casing the synthetic current-portion line. -/
theorem lowerS_debt_line1 (x : Nat) :
    lowerS (strOf "Term debt, current portion $" ++ fmtComma x) =
      strOf "term debt, current portion $" ++ fmtComma x := by
  have h1 : List.map pyLowerChar (strOf "Term debt, current portion $") =
      strOf "term debt, current portion $" := by decide
  have h2 : List.map pyLowerChar (fmtComma x) = fmtComma x := lowerS_fmtComma x
  unfold lowerS
  rw [List.map_append, h1, h2]

/-- Lower-casing the synthetic net-of-current line. -/
theorem lowerS_debt_line2 (y : Nat) :
    lowerS (strOf "Term debt, net of current portion $" ++ fmtComma y) =
      strOf "term debt, net of current portion $" ++ fmtComma y := by
  have h1 : List.map pyLowerChar (strOf "Term debt, net of current portion $") =
      strOf "term debt, net of current portion $" := by decide
  have h2 : List.map pyLowerChar (fmtComma y) = fmtComma y := lowerS_fmtComma y
  unfold lowerS
  rw [List.map_append, h1, h2]

/-- The current-portion line carries its dollar figure. -/
theorem findDollarNum_debt_line1 (x : Nat) :
    findDollarNum (strOf "Term debt, current portion $" ++ fmtComma x) =
      some x := by
  have he : strOf "Term debt, current portion $" ++ fmtComma x =
      strOf "Term debt, current portion " ++ '$' :: fmtComma x := by
    rw [show strOf "Term debt, current portion $" =
        strOf "Term debt, current portion " ++ ['$'] from rfl]
    simp
  rw [he]
  exact findDollarNum_line _ x (by decide)

/-- The net-of-current line carries its dollar figure. -/
theorem findDollarNum_debt_line2 (y : Nat) :
    findDollarNum (strOf "Term debt, net of current portion $" ++ fmtComma y) =
      some y := by
  have he : strOf "Term debt, net of current portion $" ++ fmtComma y =
      strOf "Term debt, net of current portion " ++ '$' :: fmtComma y := by
    rw [show strOf "Term debt, net of current portion $" =
        strOf "Term debt, net of current portion " ++ ['$'] from rfl]
    simp
  rw [he]
  exact findDollarNum_line _ y (by decide)

/-- The context of the debt round trip splits into its two lines. -/
theorem splitLines_debtCtx (x y : Nat) :
    splitLines (debtCtxOf x y) =
      [strOf "Term debt, current portion $" ++ fmtComma x,
       strOf "Term debt, net of current portion $" ++ fmtComma y] := by
  have hnl1 : '\n' ∉ strOf "Term debt, current portion $" ++ fmtComma x := by
    intro h
    rcases List.mem_append.mp h with h1 | h1
    · exact absurd h1 (by decide)
    · exact not_mem_fmtComma (by decide) (by decide) x h1
  have hnl2 : '\n' ∉ strOf "Term debt, net of current portion $" ++ fmtComma y := by
    intro h
    rcases List.mem_append.mp h with h1 | h1
    · exact absurd h1 (by decide)
    · exact not_mem_fmtComma (by decide) (by decide) y h1
  unfold debtCtxOf
  rw [splitLines_append _ _ hnl1, splitLines_single _ hnl2]

/-- The line scan on the synthetic context finds both components. -/
theorem debtScan_debtCtx (x y : Nat) :
    debtScan (debtCtxOf x y) = (some x, some y) := by
  have hc1 : containsSub
      (lowerS (strOf "Term debt, current portion $" ++ fmtComma x))
      (strOf "term debt") = true := by
    rw [lowerS_debt_line1]
    exact containsSub_append_right _ (by decide)
  have hc2 : containsSub
      (lowerS (strOf "Term debt, current portion $" ++ fmtComma x))
      (strOf "current") = true := by
    rw [lowerS_debt_line1]
    exact containsSub_append_right _ (by decide)
  have hc3 : containsSub
      (lowerS (strOf "Term debt, current portion $" ++ fmtComma x))
      (strOf "non-current") = false := by
    rw [lowerS_debt_line1]
    apply containsSub_eq_false_of_missing (c := '-') (by decide)
    intro h
    rcases List.mem_append.mp h with h1 | h1
    · exact absurd h1 (by decide)
    · exact not_mem_fmtComma (by decide) (by decide) x h1
  have hc4 : containsSub
      (lowerS (strOf "Term debt, current portion $" ++ fmtComma x))
      (strOf "net of current") = false := by
    rw [lowerS_debt_line1]
    apply containsSub_eq_false_of_missing (c := 'f') (by decide)
    intro h
    rcases List.mem_append.mp h with h1 | h1
    · exact absurd h1 (by decide)
    · exact not_mem_fmtComma (by decide) (by decide) x h1
  have hd1 : containsSub
      (lowerS (strOf "Term debt, net of current portion $" ++ fmtComma y))
      (strOf "term debt") = true := by
    rw [lowerS_debt_line2]
    exact containsSub_append_right _ (by decide)
  have hd2 : containsSub
      (lowerS (strOf "Term debt, net of current portion $" ++ fmtComma y))
      (strOf "current") = true := by
    rw [lowerS_debt_line2]
    exact containsSub_append_right _ (by decide)
  have hd5 : containsSub
      (lowerS (strOf "Term debt, net of current portion $" ++ fmtComma y))
      (strOf "net of current") = true := by
    rw [lowerS_debt_line2]
    exact containsSub_append_right _ (by decide)
  have hf1 := findDollarNum_debt_line1 x
  have hf2 := findDollarNum_debt_line2 y
  unfold debtScan
  rw [splitLines_debtCtx x y]
  simp only [List.foldl_cons, List.foldl_nil]
  have hstep1 : debtLineStep (none, none)
      (strOf "Term debt, current portion $" ++ fmtComma x) = (some x, none) := by
    unfold debtLineStep
    simp [hc1, hc2, hc3, hc4, hf1]
  rw [hstep1]
  unfold debtLineStep
  simp [hd1, hd2, hd5, hf2]

/-- C3: the debt round trip.  For positive figures rendered with thousands
separators in the two synthetic lines, `extract_debt` finds both
components and answers with their sum rendered the same way. -/
theorem extract_debt_round_trip (x y : Nat) (hx : 0 < x) (hy : 0 < y) :
    NumericalExtractor.extract_debt (debtCtxOf x y) =
      some ('$' :: fmtComma (x + y) ++ strOf " million") := by
  have hs := debtScan_debtCtx x y
  have hcur : debtCurrent (debtCtxOf x y) = some x := by
    unfold debtCurrent
    rw [hs]
  have hnc : debtNoncurrent (debtCtxOf x y) = some y := by
    unfold debtNoncurrent
    rw [hs]
  unfold NumericalExtractor.extract_debt
  rw [hcur, hnc]

/-- C3 witness at the Apple figures: 9,822 and 88,364 sum to 98,186. -/
theorem extract_debt_round_trip_witness :
    0 < 9822 ∧ 0 < 88364 ∧
    NumericalExtractor.extract_debt (debtCtxOf 9822 88364) =
      some ('$' :: fmtComma (9822 + 88364) ++ strOf " million") :=
  ⟨by decide, by decide, extract_debt_round_trip 9822 88364 (by decide) (by decide)⟩

/-- Every word produced by the whitespace splitter worker is nonempty and
whitespace-free, provided the accumulator is whitespace-free. -/
theorem splitWsAux_good : ∀ (s cur : Str),
    (∀ c ∈ cur, isPySpace c = false) →
    ∀ w ∈ splitWsAux cur s, w ≠ [] ∧ ∀ c ∈ w, isPySpace c = false := by
  intro s
  induction s with
  | nil =>
    intro cur hcur w hw
    simp only [splitWsAux] at hw
    by_cases hc : cur = []
    · rw [if_pos hc] at hw; simp at hw
    · rw [if_neg hc] at hw
      simp only [List.mem_singleton] at hw
      subst hw
      refine ⟨by simpa using hc, fun c hcm => hcur c (by simpa using hcm)⟩
  | cons a t ih =>
    intro cur hcur w hw
    simp only [splitWsAux] at hw
    by_cases hs : isPySpace a = true
    · rw [if_pos hs] at hw
      by_cases hc : cur = []
      · rw [if_pos hc] at hw
        exact ih [] (by simp) w hw
      · rw [if_neg hc] at hw
        rcases List.mem_cons.mp hw with h | h
        · subst h
          refine ⟨by simpa using hc, fun c hcm => hcur c (by simpa using hcm)⟩
        · exact ih [] (by simp) w h
    · rw [if_neg hs] at hw
      refine ih (a :: cur) ?_ w hw
      intro c hcm
      rcases List.mem_cons.mp hcm with h | h
      · subst h
        simpa using hs
      · exact hcur c h

/-- Words of the whitespace splitter are nonempty and whitespace-free. -/
theorem splitWs_good (s : Str) :
    ∀ w ∈ splitWs s, w ≠ [] ∧ ∀ c ∈ w, isPySpace c = false :=
  splitWsAux_good s [] (by simp)

/-- The splitter worker walks through a whitespace-free word. -/
theorem splitWsAux_word : ∀ (w cur rest : Str),
    (∀ c ∈ w, isPySpace c = false) →
    splitWsAux cur (w ++ rest) = splitWsAux (w.reverse ++ cur) rest := by
  intro w
  induction w with
  | nil => intro cur rest _; simp
  | cons a t ih =>
    intro cur rest h
    have ha : isPySpace a = false := h a (by simp)
    simp only [List.cons_append, splitWsAux, List.append_eq]
    rw [if_neg (by simp [ha])]
    rw [ih (a :: cur) rest (fun c hc => h c (by simp [hc]))]
    congr 1
    simp

/-- Splitting the space-joined words recovers the word list. -/
theorem splitWs_joinWords : ∀ ws : List Str,
    (∀ w ∈ ws, w ≠ [] ∧ ∀ c ∈ w, isPySpace c = false) →
    splitWs (joinWords ws) = ws := by
  intro ws
  induction ws with
  | nil => intro _; rfl
  | cons w rest ih =>
    intro h
    rcases h w (by simp) with ⟨hne, hchars⟩
    cases rest with
    | nil =>
      show splitWsAux [] (joinWords [w]) = [w]
      rw [show joinWords [w] = w ++ [] from by simp [joinWords]]
      rw [splitWsAux_word w [] [] hchars]
      simp only [splitWsAux, List.append_nil]
      rw [if_neg (by simpa using hne)]
      simp
    | cons w2 rest2 =>
      show splitWsAux [] (joinWords (w :: w2 :: rest2)) = w :: w2 :: rest2
      rw [show joinWords (w :: w2 :: rest2) =
          w ++ ' ' :: joinWords (w2 :: rest2) from rfl]
      rw [splitWsAux_word w [] _ hchars]
      simp only [splitWsAux, List.append_nil]
      rw [if_pos (by decide), if_neg (by simpa using hne)]
      rw [List.reverse_reverse]
      have := ih (fun a ha => h a (by simp [ha]))
      rw [show splitWs (joinWords (w2 :: rest2)) =
          splitWsAux [] (joinWords (w2 :: rest2)) from rfl] at this
      rw [this]

/-- The joined word list is nonempty when the words are. -/
theorem joinWords_ne_nil : ∀ (w : Str) (rest : List Str), w ≠ [] →
    joinWords (w :: rest) ≠ [] := by
  intro w rest hw
  cases rest with
  | nil => simpa [joinWords] using hw
  | cons w2 r2 =>
    rw [show joinWords (w :: w2 :: r2) = w ++ ' ' :: joinWords (w2 :: r2) from rfl]
    simp

/-- The head of the joined word list is the head of its first word. -/
theorem joinWords_head_not_space : ∀ (ws : List Str),
    (∀ w ∈ ws, w ≠ [] ∧ ∀ c ∈ w, isPySpace c = false) →
    ∀ c, (joinWords ws).head? = some c → isPySpace c = false := by
  intro ws h c hc
  cases ws with
  | nil => simp [joinWords] at hc
  | cons w rest =>
    rcases h w (by simp) with ⟨hne, hchars⟩
    rcases w with _ | ⟨a, t⟩
    · exact absurd rfl hne
    · have : (joinWords ((a :: t) :: rest)).head? = some a := by
        cases rest with
        | nil => rfl
        | cons w2 r2 => rfl
      rw [this] at hc
      have hac : a = c := by injection hc
      rw [← hac]
      exact hchars a (by simp)

/-- The last character of the joined word list is the last character of its
last word, hence not whitespace. -/
theorem joinWords_getLast_not_space : ∀ (ws : List Str),
    (∀ w ∈ ws, w ≠ [] ∧ ∀ c ∈ w, isPySpace c = false) →
    ∀ c, (joinWords ws).getLast? = some c → isPySpace c = false := by
  intro ws
  induction ws with
  | nil => intro _ c hc; simp [joinWords] at hc
  | cons w rest ih =>
    intro h c hc
    cases rest with
    | nil =>
      rcases h w (by simp) with ⟨hne, hchars⟩
      rw [show joinWords [w] = w from rfl] at hc
      have hmem : c ∈ w.getLast? := by simpa using hc
      rcases List.mem_getLast?_eq_getLast hmem with ⟨hw, hcl⟩
      subst hcl
      exact hchars _ (List.getLast_mem hw)
    | cons w2 rest2 =>
      rw [show joinWords (w :: w2 :: rest2) =
          w ++ ' ' :: joinWords (w2 :: rest2) from rfl] at hc
      rw [List.getLast?_append] at hc
      have hjn : joinWords (w2 :: rest2) ≠ [] :=
        joinWords_ne_nil w2 rest2 (h w2 (by simp)).1
      rcases hj : joinWords (w2 :: rest2) with _ | ⟨b, t⟩
      · exact absurd hj hjn
      · rw [hj, List.getLast?_cons_cons] at hc
        have hbt : (b :: t).getLast? = some ((b :: t).getLast (by simp)) :=
          List.getLast?_eq_getLast _ (by simp)
        rw [hbt] at hc
        rw [show (some ((b :: t).getLast (by simp))).or w.getLast? =
            some ((b :: t).getLast (by simp)) from rfl] at hc
        apply ih (fun a ha => h a (by simp [ha])) c
        rw [hj, hbt]
        exact hc

/-- A string whose first and last characters are not whitespace is fixed by
stripping. -/
theorem stripPy_eq_self (s : Str)
    (hh : ∀ c, s.head? = some c → isPySpace c = false)
    (hl : ∀ c, s.getLast? = some c → isPySpace c = false) :
    stripPy s = s := by
  unfold stripPy
  have h1 : s.dropWhile isPySpace = s := by
    cases s with
    | nil => rfl
    | cons a t => exact List.dropWhile_cons_of_neg (by simp [hh a rfl])
  rw [h1]
  have h2 : s.reverse.dropWhile isPySpace = s.reverse := by
    rcases hr : s.reverse with _ | ⟨a, t⟩
    · rfl
    · have ha : s.getLast? = some a := by
        rw [← List.head?_reverse, hr]; rfl
      exact List.dropWhile_cons_of_neg (by simp [hl a ha])
  rw [h2, List.reverse_reverse]

/-- Lower bound on the length of the joined word list. -/
theorem joinWords_length : ∀ ws : List Str, (∀ w ∈ ws, w ≠ []) →
    2 * ws.length - 1 ≤ (joinWords ws).length := by
  intro ws
  induction ws with
  | nil => intro _; simp [joinWords]
  | cons w rest ih =>
    intro h
    have hw : 1 ≤ w.length := by
      have := h w (by simp)
      cases w with
      | nil => exact absurd rfl this
      | cons a t => simp
    cases rest with
    | nil => simpa [joinWords] using hw
    | cons w2 rest2 =>
      rw [show joinWords (w :: w2 :: rest2) =
          w ++ ' ' :: joinWords (w2 :: rest2) from rfl]
      have := ih (fun a ha => h a (by simp [ha]))
      simp only [List.length_append, List.length_cons, List.length_cons] at *
      omega

/-- The window list starts with a window sharing the word sequence head:
either the whole sequence or its first `CHUNK_SIZE` words. -/
theorem windowsAux_head_take : ∀ (f : Nat) (ws : List Str), ws ≠ [] → 1 ≤ f →
    ∃ h t2, windowsAux f ws = h :: t2 ∧
      h.take CHUNK_OVERLAP = ws.take CHUNK_OVERLAP := by
  intro f ws hne hf
  cases f with
  | zero => omega
  | succ f =>
    cases ws with
    | nil => exact absurd rfl hne
    | cons w t =>
      have heq : windowsAux (f + 1) (w :: t) =
          if (w :: t).length ≤ CHUNK_SIZE then [w :: t]
          else (w :: t).take CHUNK_SIZE ::
            windowsAux f ((w :: t).drop (CHUNK_SIZE - CHUNK_OVERLAP)) := rfl
      by_cases hle : (w :: t).length ≤ CHUNK_SIZE
      · exact ⟨w :: t, [], by rw [heq, if_pos hle], rfl⟩
      · refine ⟨(w :: t).take CHUNK_SIZE,
          windowsAux f ((w :: t).drop (CHUNK_SIZE - CHUNK_OVERLAP)), ?_, ?_⟩
        · rw [heq, if_neg hle]
        · rw [List.take_take]
          rw [show min CHUNK_OVERLAP CHUNK_SIZE = CHUNK_OVERLAP from by decide]

/-- Consecutive windows overlap: the last `CHUNK_OVERLAP` words of a window
are the first `CHUNK_OVERLAP` words of the next. -/
theorem windowsAux_chain : ∀ (f : Nat) (ws : List Str), ws.length ≤ f →
    List.Chain' (fun a b => a.drop (a.length - CHUNK_OVERLAP) =
      b.take CHUNK_OVERLAP) (windowsAux f ws) := by
  intro f
  induction f with
  | zero =>
    intro ws _
    rw [show windowsAux 0 ws = [] from rfl]
    exact List.chain'_nil
  | succ f ih =>
    intro ws hlen
    cases ws with
    | nil =>
      rw [show windowsAux (f + 1) ([] : List Str) = [] from rfl]
      exact List.chain'_nil
    | cons w t =>
      have hcs : CHUNK_SIZE = 600 := rfl
      have hco : CHUNK_OVERLAP = 150 := rfl
      have heq : windowsAux (f + 1) (w :: t) =
          if (w :: t).length ≤ CHUNK_SIZE then [w :: t]
          else (w :: t).take CHUNK_SIZE ::
            windowsAux f ((w :: t).drop (CHUNK_SIZE - CHUNK_OVERLAP)) := rfl
      by_cases hle : (w :: t).length ≤ CHUNK_SIZE
      · rw [heq, if_pos hle]
        exact List.chain'_singleton _
      · have hn : CHUNK_SIZE < (w :: t).length := by omega
        rw [heq, if_neg hle]
        rw [List.chain'_cons']
        have hdlen : ((w :: t).drop (CHUNK_SIZE - CHUNK_OVERLAP)).length =
            (w :: t).length - (CHUNK_SIZE - CHUNK_OVERLAP) :=
          List.length_drop _ _
        have hd_ne : (w :: t).drop (CHUNK_SIZE - CHUNK_OVERLAP) ≠ [] := by
          intro hcon
          have hc2 := congrArg List.length hcon
          rw [hdlen] at hc2
          simp only [List.length_nil] at hc2
          omega
        have hf1 : 1 ≤ f := by omega
        constructor
        · intro b hb
          obtain ⟨h0, t2, heq2, htake⟩ :=
            windowsAux_head_take f _ hd_ne hf1
          rw [heq2] at hb
          simp only [List.head?_cons, Option.mem_def, Option.some.injEq] at hb
          subst hb
          rw [htake]
          rw [List.length_take]
          rw [show min CHUNK_SIZE (w :: t).length = CHUNK_SIZE from by omega]
          rw [List.drop_take]
          rw [show CHUNK_SIZE - (CHUNK_SIZE - CHUNK_OVERLAP) = CHUNK_OVERLAP
            from by decide]
        · apply ih
          rw [hdlen]
          omega

/-- Every window except possibly the last holds exactly `CHUNK_SIZE`
words. -/
theorem windowsAux_dropLast_len : ∀ (f : Nat) (ws : List Str), ws.length ≤ f →
    ∀ w ∈ (windowsAux f ws).dropLast, w.length = CHUNK_SIZE := by
  intro f
  induction f with
  | zero =>
    intro ws _ w hw
    rw [show windowsAux 0 ws = [] from rfl] at hw
    simp at hw
  | succ f ih =>
    intro ws hlen
    cases ws with
    | nil =>
      intro w hw
      rw [show windowsAux (f + 1) ([] : List Str) = [] from rfl] at hw
      simp at hw
    | cons w0 t =>
      have hcs : CHUNK_SIZE = 600 := rfl
      have hco : CHUNK_OVERLAP = 150 := rfl
      have heq : windowsAux (f + 1) (w0 :: t) =
          if (w0 :: t).length ≤ CHUNK_SIZE then [w0 :: t]
          else (w0 :: t).take CHUNK_SIZE ::
            windowsAux f ((w0 :: t).drop (CHUNK_SIZE - CHUNK_OVERLAP)) := rfl
      by_cases hle : (w0 :: t).length ≤ CHUNK_SIZE
      · intro w hw
        rw [heq, if_pos hle] at hw
        simp at hw
      · have hn : CHUNK_SIZE < (w0 :: t).length := by omega
        have hdlen : ((w0 :: t).drop (CHUNK_SIZE - CHUNK_OVERLAP)).length =
            (w0 :: t).length - (CHUNK_SIZE - CHUNK_OVERLAP) :=
          List.length_drop _ _
        have hd_ne : (w0 :: t).drop (CHUNK_SIZE - CHUNK_OVERLAP) ≠ [] := by
          intro hcon
          have hc2 := congrArg List.length hcon
          rw [hdlen] at hc2
          simp only [List.length_nil] at hc2
          omega
        have hf1 : 1 ≤ f := by omega
        obtain ⟨h0, t2, heq2, _⟩ := windowsAux_head_take f _ hd_ne hf1
        intro w hw
        rw [heq, if_neg hle, heq2, List.dropLast_cons₂] at hw
        rcases List.mem_cons.mp hw with h | h
        · subst h
          rw [List.length_take]
          omega
        · exact ih _ (by rw [hdlen]; omega) w (by rw [heq2]; exact h)

/-- Window words come from the original word sequence. -/
theorem windowsAux_mem : ∀ (f : Nat) (ws w : List Str),
    w ∈ windowsAux f ws → ∀ x ∈ w, x ∈ ws := by
  intro f
  induction f with
  | zero =>
    intro ws w hw
    rw [show windowsAux 0 ws = [] from rfl] at hw
    simp at hw
  | succ f ih =>
    intro ws w hw
    cases ws with
    | nil =>
      rw [show windowsAux (f + 1) ([] : List Str) = [] from rfl] at hw
      simp at hw
    | cons w0 t =>
      have heq : windowsAux (f + 1) (w0 :: t) =
          if (w0 :: t).length ≤ CHUNK_SIZE then [w0 :: t]
          else (w0 :: t).take CHUNK_SIZE ::
            windowsAux f ((w0 :: t).drop (CHUNK_SIZE - CHUNK_OVERLAP)) := rfl
      by_cases hle : (w0 :: t).length ≤ CHUNK_SIZE
      · rw [heq, if_pos hle] at hw
        simp only [List.mem_singleton] at hw
        subst hw
        exact fun x hx => hx
      · rw [heq, if_neg hle] at hw
        rcases List.mem_cons.mp hw with h | h
        · subst h
          exact fun x hx => List.mem_of_mem_take hx
        · exact fun x hx => List.mem_of_mem_drop (ih _ w h x hx)

/-- A filter whose predicate holds everywhere except possibly on the last
element keeps the list or at most drops that last element. -/
theorem filter_true_dropLast {α : Type} (l : List α) (p : α → Bool)
    (h : ∀ x ∈ l.dropLast, p x = true) :
    l.filter p = l ∨ l.filter p = l.dropLast := by
  induction l with
  | nil => exact Or.inl rfl
  | cons a t ih =>
    cases t with
    | nil =>
      by_cases hp : p a = true
      · exact Or.inl (by simp [List.filter_cons, hp])
      · right
        rw [show (a :: ([] : List α)).dropLast = [] from rfl]
        simp only [List.filter_cons]
        rw [if_neg hp]
        rfl
    | cons b t2 =>
      have hpa : p a = true := h a (by rw [List.dropLast_cons₂]; simp)
      have ih2 := ih (fun x hx => h x (by rw [List.dropLast_cons₂]; simp [hx]))
      rcases ih2 with h1 | h1
      · exact Or.inl (by simp [List.filter_cons, hpa, h1])
      · right
        rw [List.dropLast_cons₂]
        simp [List.filter_cons, hpa, h1]

/-- A chain survives replacing each element by an equal image. -/
theorem chain'_of_map_eq {α : Type} {R : α → α → Prop} (f : α → α) :
    ∀ (l : List α), (∀ a ∈ l, f a = a) → List.Chain' R l →
    List.Chain' (fun a b => R (f a) (f b)) l := by
  intro l
  induction l with
  | nil => intro _ _; exact List.chain'_nil
  | cons a t ih =>
    intro hf h
    rw [List.chain'_cons'] at h ⊢
    refine ⟨?_, ih (fun x hx => hf x (by simp [hx])) h.2⟩
    intro b hb
    have hbt : b ∈ t := by
      cases t with
      | nil => simp at hb
      | cons c t2 =>
        simp only [List.head?_cons, Option.mem_def, Option.some.injEq] at hb
        simp [hb]
    rw [hf a (by simp), hf b (by simp [hbt])]
    exact h.1 b hb

/-- The emitted windows of any word sequence of nonempty, whitespace-free
words are chained by the `CHUNK_OVERLAP`-word overlap. -/
theorem emittedWindows_chain (ws : List Str)
    (hgood : ∀ w ∈ ws, w ≠ [] ∧ ∀ c ∈ w, isPySpace c = false) :
    List.Chain' (fun a b => a.drop (a.length - CHUNK_OVERLAP) =
      b.take CHUNK_OVERLAP) (emittedWindows ws) := by
  have hchain : List.Chain' (fun a b => a.drop (a.length - CHUNK_OVERLAP) =
      b.take CHUNK_OVERLAP) (wordWindows ws) :=
    windowsAux_chain ws.length ws (le_refl _)
  have hpass : ∀ w ∈ (wordWindows ws).dropLast,
      (decide (20 < (stripPy (joinWords w)).length)) = true := by
    intro w hw
    have hlen : w.length = CHUNK_SIZE :=
      windowsAux_dropLast_len ws.length ws (le_refl _) w hw
    have hw2 : w ∈ wordWindows ws := (List.dropLast_prefix _).subset hw
    have hsub : ∀ x ∈ w, x ∈ ws := windowsAux_mem ws.length ws w hw2
    have hg : ∀ x ∈ w, x ≠ [] ∧ ∀ c ∈ x, isPySpace c = false :=
      fun x hx => hgood x (hsub x hx)
    have hstrip : stripPy (joinWords w) = joinWords w :=
      stripPy_eq_self _ (joinWords_head_not_space w hg)
        (joinWords_getLast_not_space w hg)
    have hlb : 2 * w.length - 1 ≤ (joinWords w).length :=
      joinWords_length w (fun x hx => (hg x hx).1)
    rw [decide_eq_true_eq, hstrip]
    rw [hlen] at hlb
    have : (1199 : Nat) ≤ (joinWords w).length := by
      simpa [CHUNK_SIZE] using hlb
    omega
  have hw : emittedWindows ws = (wordWindows ws).filter
      (fun w => decide (20 < (stripPy (joinWords w)).length)) := rfl
  rcases filter_true_dropLast (wordWindows ws)
      (fun w => decide (20 < (stripPy (joinWords w)).length)) hpass with he | he
  · rw [hw, he]
    exact hchain
  · rw [hw, he]
    exact hchain.prefix (List.dropLast_prefix _)

/-- C9: within one page, the non-table word-window chunks emitted by
`smart_chunk` overlap: each chunk ends with the `CHUNK_OVERLAP` words the
next chunk starts with. -/
theorem smart_chunk_window_overlap (pg : Nat) (text : Str) :
    List.Chain' (fun a b =>
      (splitWs a.text).drop ((splitWs a.text).length - CHUNK_OVERLAP) =
      (splitWs b.text).take CHUNK_OVERLAP)
      ((smart_chunk [PageT.mk pg text]).filter (fun c => !c.is_table)) := by
  have hpage : (smart_chunk [PageT.mk pg text]).filter (fun c => !c.is_table) =
      (emittedWindows (pageNonTableWords ⟨pg, text⟩)).map
        (fun w => ChunkT.mk (joinWords w) pg (detect_section (joinWords w))
          false) := by
    have h1 : smart_chunk [PageT.mk pg text] = pageChunks ⟨pg, text⟩ := by
      simp [smart_chunk]
    rw [h1]
    unfold pageChunks
    rw [List.filter_append]
    have h2 : ((TableDetector.extract_table_blocks text).filterMap (fun t =>
        if 50 < t.text.length then
          some (ChunkT.mk t.text pg (detect_section t.text) true)
        else none)).filter (fun c => !c.is_table) = [] := by
      rw [List.filter_eq_nil_iff]
      intro c hc
      rcases List.mem_filterMap.mp hc with ⟨t, _, hsome⟩
      by_cases h50 : 50 < t.text.length
      · rw [if_pos h50] at hsome
        injection hsome with hsome
        rw [← hsome]
        simp
      · rw [if_neg h50] at hsome
        exact Option.noConfusion hsome
    rw [h2, List.nil_append, List.filter_map]
    have h3 : ((fun c => !ChunkT.is_table c) ∘ (fun w =>
        ChunkT.mk (joinWords w) pg (detect_section (joinWords w)) false)) =
        fun _ => true := by
      funext w
      rfl
    rw [h3, List.filter_true]
  rw [hpage, List.chain'_map]
  have hgood : ∀ w ∈ pageNonTableWords ⟨pg, text⟩,
      w ≠ [] ∧ ∀ c ∈ w, isPySpace c = false := by
    unfold pageNonTableWords
    exact splitWs_good _
  have hcore := emittedWindows_chain (pageNonTableWords ⟨pg, text⟩) hgood
  have hrt : ∀ w ∈ emittedWindows (pageNonTableWords ⟨pg, text⟩),
      splitWs (joinWords w) = w := by
    intro w hw
    have hw2 : w ∈ wordWindows (pageNonTableWords ⟨pg, text⟩) :=
      List.mem_of_mem_filter hw
    have hsub := windowsAux_mem _ _ w hw2
    exact splitWs_joinWords w (fun x hx => hgood x (hsub x hx))
  exact chain'_of_map_eq _ _ hrt hcore
